import Mathlib

/-!
Verification of the `watchso` hot-reload orchestrator.

This file is a shallow embedding of the core logic of the repository:
path-to-program-name derivation and the project map (`framework_utils.rs`),
the `declare_id!` identity patcher and its regex (`framework_utils.rs`),
the default `on_action` dispatcher (`framework.rs`), the top-level watch
handler (`watch.rs`), the initialization pipeline (`framework.rs` together
with `progress.rs`), build-tool selection (`framework_utils.rs` and
`frameworks/native.rs`), and framework detection (`frameworks/mod.rs`).

Modelling conventions:
* Strings and file contents are `List Char` (byte/char-exact); `String`
  literals are converted with `.data` at concrete inputs.
* External effects (subprocess execution, filesystem reads and writes,
  directory listing, the watcher) are passed in as explicit environment
  functions returning `Except`/`Option` values, and the commands the code
  issues are collected into explicit traces.
* Rust `HashSet` iteration order is unspecified; it is modelled as
  first-occurrence-ordered deduplication (`dedupAux`), which fixes one
  admissible order.  No proved statement depends on the particular order.
* A Rust regex `Match` (a byte range plus the matched text) is modelled as
  the decomposition of the content at the match: `(pre, matched, post)`
  with `content = pre ++ matched ++ post`; `replace_range` becomes
  `pre ++ replacement ++ post`.
-/

namespace Watchso

/-! ### Generic character-list utilities -/

/-- First-occurrence-preserving deduplication, with the set of already seen
elements carried as a list.  Models iteration over a Rust `HashSet` that was
filled in a known order. -/
def dedupAux [DecidableEq α] (seen : List α) : List α → List α
  | [] => []
  | x :: xs => if x ∈ seen then dedupAux seen xs else x :: dedupAux (x :: seen) xs

/-- Deduplicate a list keeping first occurrences. -/
def dedup [DecidableEq α] (l : List α) : List α := dedupAux [] l

/-- `leadsWith l p` is true iff `p` is an initial segment of `l`. -/
def leadsWith : List Char → List Char → Bool
  | _, [] => true
  | [], _ :: _ => false
  | c :: cs, d :: ds => c = d && leadsWith cs ds

/-- `hasSuffix l suf` is true iff `l` ends with `suf`
(Rust `str::ends_with`). -/
def hasSuffix (l suf : List Char) : Bool :=
  leadsWith l.reverse suf.reverse

/-- Rust `str::trim_end_matches`: repeatedly strip `suf` from the end of `l`
while it is a suffix.  Fuel-based so that it is structurally recursive; the
wrapper passes `l.length`, which is always enough fuel because each round
removes at least one character (for nonempty `suf`). -/
def trimEndAux (suf : List Char) : Nat → List Char → List Char
  | 0, l => l
  | f + 1, l =>
    if suf ≠ [] ∧ hasSuffix l suf then trimEndAux suf f (l.take (l.length - suf.length))
    else l

/-- Rust `str::trim_end_matches` on char lists. -/
def trimEndMatches (l suf : List Char) : List Char := trimEndAux suf l.length l

/-- The file-name component of a path: everything after the last `/`
(Rust `Path::file_name` for ordinary file paths). -/
def fileNameOf (p : List Char) : List Char :=
  (p.reverse.takeWhile (· ≠ '/')).reverse

/-- The extension of a file name: the portion after the last `.`, or `none`
when there is no dot or the only dot is the leading character
(Rust `Path::extension` for ordinary file names). -/
def pathExt (p : List Char) : Option (List Char) :=
  let name := fileNameOf p
  let afterDot := (name.reverse.takeWhile (· ≠ '.')).reverse
  if afterDot.length = name.length then none
  else if name.length = afterDot.length + 1 then none
  else some afterDot

/-! ### `framework_utils.rs`: `ProgramName` and `ProjectMap` -/

/-- `ProgramName::kebab_case`: Rust `self.0.replace('_', "-")`, which for a
single-character pattern is a character-wise map. -/
def kebab_case (name : List Char) : List Char :=
  name.map fun c => if c = '_' then '-' else c

/-- `ProgramName::from_path`: take the file name of `path`, keep it only if
it ends with `suffix`, and strip the suffix (with `trim_end_matches`). -/
def ProgramName.from_path (path suffix : List Char) : Option (List Char) :=
  if hasSuffix (fileNameOf path) suffix then
    some (trimEndMatches (fileNameOf path) suffix)
  else none

/-- `ProgramName::from_keypair_path`: program keypairs are named
`<program_name>-keypair.json`. -/
def ProgramName.from_keypair_path (path : List Char) : Option (List Char) :=
  ProgramName.from_path path "-keypair.json".data

/-- `ProgramName::from_elf_path`: program ELF files are named
`<program_name>.so`. -/
def ProgramName.from_elf_path (path : List Char) : Option (List Char) :=
  ProgramName.from_path path ".so".data

/-- A `ProjectMap` is a mapping from program name to program path; the
backing `HashMap` behind the `RwLock` is modelled as a lookup function. -/
def ProjectMap : Type := List Char → Option (List Char)

/-- `ProjectMap::get_program_path`: derive a candidate program name from the
file's extension (`json` → keypair naming, `so` → ELF naming), then look the
name up literally first and in kebab-case second. -/
def ProjectMap.get_program_path (m : ProjectMap) (path : List Char) :
    Option (List Char) :=
  let program_name :=
    match pathExt path with
    | some ext =>
      if ext = "json".data then ProgramName.from_keypair_path path
      else if ext = "so".data then ProgramName.from_elf_path path
      else none
    | none => none
  match program_name with
  | some program_name =>
    match m program_name with
    | some program_path => some program_path
    | none => m (kebab_case program_name)
  | none => none

/-! ### `framework_utils.rs`: the `declare_id!` identity patcher

The Rust code patches the first match of the multi-line regex
`^(([\w]+::)*)declare_id!\("(\w*)"\)`, replacing capture group 3 (the
quoted identifier).  The regex is modelled exactly for ASCII content:
* `\w` is modelled as ASCII `[0-9A-Za-z_]`;
* every atom of the pattern (word characters and the literals) excludes
  `\n` and the match is anchored at a line start, so the leftmost match in
  multi-line mode is the first line (top to bottom) whose beginning parses;
* the greedy star `([\w]+::)*` needs no backtracking: after any shorter
  repetition count the next characters are a word run followed by `::`,
  which can never also match the literal `declare_id!("` (the literal has
  no `:` where the text has one), so the greedy left-to-right parse below
  is the regex semantics.
-/

/-- Regex `\w`, restricted to ASCII. -/
def isWordChar (c : Char) : Bool := c.isAlphanum || c = '_'

/-- Split a list at its maximal leading run of word characters (`\w*`). -/
def takeWordRun : List Char → List Char × List Char
  | [] => ([], [])
  | c :: cs =>
    if isWordChar c then (c :: (takeWordRun cs).1, (takeWordRun cs).2)
    else ([], c :: cs)

/-- Strip an expected literal from the front of a list, or fail. -/
def stripLit : List Char → List Char → Option (List Char)
  | [], s => some s
  | _ :: _, [] => none
  | c :: cs, d :: ds => if c = d then stripLit cs ds else none

/-- Greedy parse of `([\w]+::)*`: repeatedly consume a nonempty word run
followed by `::`; stop (consuming nothing of the current run) as soon as the
run is empty or not followed by `::`.  Fuel-based structural recursion; each
round consumes at least three characters, so `s.length` fuel suffices. -/
def parseGroupsAux : Nat → List Char → List Char × List Char
  | 0, s => ([], s)
  | f + 1, s =>
    match takeWordRun s with
    | (c :: w, a :: b :: rest2) =>
      if a = ':' ∧ b = ':' then
        (c :: w ++ ':' :: ':' :: (parseGroupsAux f rest2).1,
          (parseGroupsAux f rest2).2)
      else ([], s)
    | _ => ([], s)

/-- Greedy parse of `([\w]+::)*` (capture group 1 of the Rust pattern). -/
def parseGroups (s : List Char) : List Char × List Char :=
  parseGroupsAux s.length s

/-- The literal part of the pattern before capture group 3. -/
def litDeclare : List Char := "declare_id!(\"".data

/-- The literal part of the pattern after capture group 3. -/
def litClose : List Char := "\")".data

/-- Attempt the anchored pattern `(([\w]+::)*)declare_id!\("(\w*)"\)` at the
beginning of one line.  On success returns the decomposition of the line at
capture group 3: `(before, group3, after)` with
`line = before ++ group3 ++ after`. -/
def parseLine (l : List Char) : Option (List Char × List Char × List Char) :=
  match stripLit litDeclare (parseGroups l).2 with
  | none => none
  | some r2 =>
    match stripLit litClose (takeWordRun r2).2 with
    | none => none
    | some t => some ((parseGroups l).1 ++ litDeclare, (takeWordRun r2).1, litClose ++ t)

/-- Split content into lines at `\n` (the separators are dropped; an empty
content is one empty line). -/
def splitLines : List Char → List (List Char)
  | [] => [[]]
  | c :: rest =>
    if c = '\n' then [] :: splitLines rest
    else
      match splitLines rest with
      | l :: ls => (c :: l) :: ls
      | [] => [[c]]

/-- Join a list of continuation lines, each preceded by `\n`. -/
def tailJoin : List (List Char) → List Char
  | [] => []
  | l :: ls => '\n' :: (l ++ tailJoin ls)

/-- Inverse of `splitLines`: rejoin lines with `\n` separators. -/
def joinLines : List (List Char) → List Char
  | [] => []
  | l :: ls => l ++ tailJoin ls

/-- Find the first line whose beginning matches the pattern and return the
decomposition of the whole content at capture group 3 of that match. -/
def findCaptureLines :
    List (List Char) → Option (List Char × List Char × List Char)
  | [] => none
  | l :: ls =>
    match parseLine l with
    | some (p, w, q) => some (p, w, q ++ tailJoin ls)
    | none =>
      match findCaptureLines ls with
      | some (p, w, q) => some (l ++ '\n' :: p, w, q)
      | none => none

/-- The callback passed by `update_rust_program_id`:
`REGEX.captures(content).and_then(|captures| captures.get(3))`, i.e. the
first match of the multi-line pattern, as a decomposition of the content at
capture group 3. -/
def rustDeclareIdCapture (content : List Char) :
    Option (List Char × List Char × List Char) :=
  findCaptureLines (splitLines content)

/-- `update_file_program_id_with`: run the pattern callback on the content;
if it matches and the matched identifier differs from `program_id`, replace
exactly the matched range and report `true`; otherwise leave the content
untouched and report `false`.  The file read/write pair is modelled by
taking and returning the content. -/
def update_file_program_id_with
    (cb : List Char → Option (List Char × List Char × List Char))
    (content program_id : List Char) : List Char × Bool :=
  match cb content with
  | some (pre, matched, post) =>
    if matched ≠ program_id then (pre ++ program_id ++ post, true)
    else (content, false)
  | none => (content, false)

/-- `update_rust_program_id`: `update_file_program_id_with` instantiated
with the Rust `declare_id!` regex callback. -/
def update_rust_program_id (content program_id : List Char) :
    List Char × Bool :=
  update_file_program_id_with rustDeclareIdCapture content program_id

/-- Well-formed strings of the group `([\w]+::)*`: concatenations of
nonempty word runs each followed by `::`. -/
inductive GroupsStr : List Char → Prop
  | nil : GroupsStr []
  | cons (c : Char) (w g : List Char) (hc : isWordChar c = true)
      (hw : ∀ x ∈ w, isWordChar x = true) (hg : GroupsStr g) :
      GroupsStr (c :: w ++ ':' :: ':' :: g)

/-- A concrete project map with a single program inserted under the
snake_case name `hello_world`. -/
def mapSnake : ProjectMap := fun n =>
  if n = "hello_world".data then some "programs/hello_world".data else none

/-- A concrete project map with a single program inserted under the
kebab-case name `hello-world`. -/
def mapKebab : ProjectMap := fun n =>
  if n = "hello-world".data then some "programs/hello-world".data else none

instance [DecidableEq ε] [DecidableEq α] : DecidableEq (Except ε α) := fun x y =>
  match x, y with
  | .ok a, .ok b =>
    if h : a = b then isTrue (h ▸ rfl)
    else isFalse fun hh => h (by injection hh)
  | .error a, .error b =>
    if h : a = b then isTrue (h ▸ rfl)
    else isFalse fun hh => h (by injection hh)
  | .ok _, .error _ => isFalse fun hh => Except.noConfusion hh
  | .error _, .ok _ => isFalse fun hh => Except.noConfusion hh

/-! ### `action.rs`: `WAction` -/

/-- The watchexec `MainSignal` variants seen by the dispatcher. -/
inductive MainSignal
  | hangup | interrupt | quit | terminate | user1 | user2
deriving DecidableEq

/-- A filesystem change notification: the affected paths and any OS signals
it carries. -/
structure WEvent where
  paths : List (List Char)
  signals : List MainSignal
deriving DecidableEq

/-- `WAction`: a debounced batch of events delivered to the dispatcher. -/
structure WAction where
  events : List WEvent
deriving DecidableEq

/-- `WAction::is_any_signal`: whether any event in the batch carries the
given signal. -/
def WAction.is_any_signal (a : WAction) (s : MainSignal) : Bool :=
  ((a.events.map WEvent.signals).flatten).any fun sig => sig = s

/-- `WAction::is_interrupt`. -/
def WAction.is_interrupt (a : WAction) : Bool :=
  a.is_any_signal .interrupt

/-- `WAction::is_terminate`. -/
def WAction.is_terminate (a : WAction) : Bool :=
  a.is_any_signal .terminate

/-- `WAction::get_unique_paths`: all paths of all events in the batch, with
duplicates removed (`HashSet` interning, modelled first-occurrence
ordered). -/
def WAction.get_unique_paths (a : WAction) : List (List Char) :=
  dedup ((a.events.map WEvent.paths).flatten)

/-- The set of already-seen elements after a `dedupAux` pass. -/
def seenAfter [DecidableEq α] (seen : List α) : List α → List α
  | [] => seen
  | x :: xs => if x ∈ seen then seenAfter seen xs else seenAfter (x :: seen) xs

/-! ### `framework.rs`: the default `on_action` -/

/-- A command issued by the dispatcher (the externally visible side
effects). -/
inductive Cmd
  | build (program_path : List Char)
  | deploy (elf_path : List Char)
  | update_id (keypair_path : List Char)
deriving DecidableEq

/-- Environment of the default `on_action`: the outcomes of the external
operations it may invoke (`cargo locate-project`, deploy spawn, identity
sync, build spawn).  `Except` carries the `miette` error that `?` would
propagate. -/
structure ActionEnv where
  locate : List Char → Except (List Char) (List Char)
  deploy_spawn : List Char → Except (List Char) Bool
  update_program_id : List Char → Except (List Char) Unit
  build_spawn : List Char → Except (List Char) Bool

/-- The classification loop of the default `on_action`: walk the unique
action paths; for `rs`/`toml` resolve the owning program path and insert it
into the unique-program set (`acc`, insertion-ordered); for `so` issue a
deploy; for `json` issue an identity sync; other extensions are skipped.
The first error aborts the loop (`?`).  Returns the final set, the issued
command trace, and the error if any. -/
def classifyPaths (env : ActionEnv) :
    List (List Char) → List (List Char) →
      List (List Char) × List Cmd × Option (List Char)
  | acc, [] => (acc, [], none)
  | acc, path :: rest =>
    match pathExt path with
    | some ext =>
      if ext = "rs".data ∨ ext = "toml".data then
        match env.locate path with
        | .ok program_path =>
          classifyPaths env
            (if program_path ∈ acc then acc else acc ++ [program_path]) rest
        | .error e => (acc, [], some e)
      else if ext = "so".data then
        match env.deploy_spawn path with
        | .ok _ =>
          ((classifyPaths env acc rest).1,
            Cmd.deploy path :: (classifyPaths env acc rest).2.1,
            (classifyPaths env acc rest).2.2)
        | .error e => (acc, [Cmd.deploy path], some e)
      else if ext = "json".data then
        match env.update_program_id path with
        | .ok _ =>
          ((classifyPaths env acc rest).1,
            Cmd.update_id path :: (classifyPaths env acc rest).2.1,
            (classifyPaths env acc rest).2.2)
        | .error e => (acc, [Cmd.update_id path], some e)
      else classifyPaths env acc rest
    | none => classifyPaths env acc rest

/-- The build loop of the default `on_action`: one build per unique program
path, aborting on the first spawn error. -/
def runBuilds (env : ActionEnv) :
    List (List Char) → List Cmd × Option (List Char)
  | [] => ([], none)
  | p :: rest =>
    match env.build_spawn p with
    | .ok _ =>
      (Cmd.build p :: (runBuilds env rest).1, (runBuilds env rest).2)
    | .error e => ([Cmd.build p], some e)

/-- `WatchableFramework::on_action` (default implementation): classify the
whole batch first, then issue the builds for the collected unique program
paths.  Returns the issued command trace and the `Result` value. -/
def default_on_action (env : ActionEnv) (action : WAction) :
    List Cmd × Except (List Char) Unit :=
  match classifyPaths env [] action.get_unique_paths with
  | (_, cmds, some e) => (cmds, .error e)
  | (progs, cmds, none) =>
    match runBuilds env progs with
    | (bcmds, some e) => (cmds ++ bcmds, .error e)
    | (bcmds, none) => (cmds ++ bcmds, .ok ())

/-! ### `watch.rs`: the top-level action handler -/

/-- The outcome the top-level handler applies to the watchexec loop. -/
inductive LoopOutcome
  | stop_exit
  | continue_watch
deriving DecidableEq

/-- Everything observable about one invocation of the top-level handler:
the loop outcome, the commands issued by the framework handler, the error
lines printed to stderr, and the handler's return value. -/
structure TopResult where
  outcome : LoopOutcome
  cmds : List Cmd
  stderr : List (List Char)
  ret : Except (List Char) Unit
deriving DecidableEq

/-- `watch.rs::on_action`, the top-level handler, parametrized by the
framework's `on_action` (`handler`): an interrupt or terminate signal in
the batch stops and exits the loop before the handler runs; otherwise the
handler runs and an error from it is printed as a single `[ERR]`-prefixed
line; the function itself always returns `Ok(())`. -/
def top_on_action (handler : WAction → List Cmd × Except (List Char) Unit)
    (action : WAction) : TopResult :=
  if action.is_interrupt || action.is_terminate then
    { outcome := .stop_exit, cmds := [], stderr := [], ret := .ok () }
  else
    match handler action with
    | (cmds, .error e) =>
      { outcome := .continue_watch, cmds := cmds,
        stderr := ["[ERR] ".data ++ e], ret := .ok () }
    | (cmds, .ok _) =>
      { outcome := .continue_watch, cmds := cmds, stderr := [],
        ret := .ok () }

/-- A concrete batch carrying an interrupt signal alongside ordinary file
paths. -/
def actInterrupt : WAction :=
  ⟨[⟨["a.rs".data], [MainSignal.interrupt]⟩, ⟨["b.so".data], []⟩]⟩

/-- A concrete batch with a single source-file path and no signals. -/
def actPlain : WAction := ⟨[⟨["a.rs".data], []⟩]⟩

/-- A probe handler that would issue a build if it were invoked. -/
def handlerProbe : WAction → List Cmd × Except (List Char) Unit :=
  fun _ => ([Cmd.build "x".data], .ok ())

/-- A handler that always fails. -/
def handlerErr : WAction → List Cmd × Except (List Char) Unit :=
  fun _ => ([], .error "boom".data)

/-- A concrete action environment: three known source files that resolve to
the program directory `prog`, with all external operations succeeding. -/
def envC5 : ActionEnv where
  locate := fun p =>
    if p = "src/a.rs".data ∨ p = "src/b.rs".data ∨ p = "Cargo.toml".data then
      .ok "prog".data
    else .error "no project".data
  deploy_spawn := fun _ => .ok true
  update_program_id := fun _ => .ok ()
  build_spawn := fun _ => .ok true

/-- A concrete batch: two events whose paths overlap (`src/a.rs` appears in
both) and include two more source files of the same program plus an
artifact. -/
def actC5 : WAction :=
  ⟨[⟨["src/a.rs".data, "x.so".data], []⟩,
    ⟨["src/a.rs".data, "src/b.rs".data, "Cargo.toml".data], []⟩]⟩

/-! ### `framework.rs` with `progress.rs`: the initialization pipeline

`Framework::initialize` chains every stage with `?`: `check_toolset`,
`map_program_names`, the validator-start spinner, the conditional bootstrap
build spinner, the `read_dir` of `target/deploy`, and the three
`Progress::progress_with` loops (identity syncs, builds, deploys).  Inside
`progress_with` each item's callback is also awaited with `?`, so the first
failing item aborts the loop before `handle_output` runs.
`start_test_validator` spawns a detached task and always returns `Ok`, so
the validator stage cannot fail. -/

/-- One observable step of the initialization pipeline. -/
inductive InitStep
  | toolset_check
  | name_mapping
  | validator_start
  | bootstrap_build
  | identity_sync (keypair_path : List Char)
  | program_build (build_path : List Char)
  | artifact_deploy (elf_path : List Char)
deriving DecidableEq

/-- Environment of `Framework::initialize`: the outcome of each external
stage operation. -/
structure InitEnv where
  check_toolset : Except (List Char) Unit
  map_program_names : Except (List Char) Unit
  deploy_dir_exists : Bool
  bootstrap_build : Except (List Char) Unit
  read_deploy_dir : Except (List Char) (List (List Char))
  get_program_path : List Char → Option (List Char)
  update_program_id : List Char → Except (List Char) Unit
  build_output : List Char → Except (List Char) Unit
  deploy_output : List Char → Except (List Char) Unit

/-- `Progress::progress_with`: run the callback on each item in order,
recording a step per attempted item; the first error ends the loop and is
returned (`cb(item).await?`). -/
def progressSteps (mk : List Char → InitStep)
    (cb : List Char → Except (List Char) Unit) :
    List (List Char) → List InitStep × Except (List Char) Unit
  | [] => ([], .ok ())
  | x :: xs =>
    match cb x with
    | .ok _ => (mk x :: (progressSteps mk cb xs).1, (progressSteps mk cb xs).2)
    | .error e => ([mk x], .error e)

/-- The keypair files among the `target/deploy` entries (`json`
extension), in directory order. -/
def keypairsOf (entries : List (List Char)) : List (List Char) :=
  entries.filter fun p => pathExt p = some "json".data

/-- The program ELF files among the `target/deploy` entries (`so`
extension), in directory order. -/
def elfsOf (entries : List (List Char)) : List (List Char) :=
  entries.filter fun p => pathExt p = some "so".data

/-- The unique build paths: resolve every keypair and ELF entry through the
project map and collect the successfully resolved program paths into a set
(keypairs first, as in the code's `[&keypair_paths, &elf_paths]` loop). -/
def uniqueBuildPaths (env : InitEnv) (entries : List (List Char)) :
    List (List Char) :=
  dedup ((keypairsOf entries ++ elfsOf entries).filterMap env.get_program_path)

/-- The part of `initialize` from the `read_dir` of `target/deploy`
onwards: enumerate and classify the entries, then the three
`progress_with` stages in order (identity sync per keypair, build per
unique path, deploy per ELF), each chained with `?`. -/
def initRest (env : InitEnv) : List InitStep × Except (List Char) Unit :=
  match env.read_deploy_dir with
  | .error e => ([], .error e)
  | .ok entries =>
    match progressSteps InitStep.identity_sync env.update_program_id
        (keypairsOf entries) with
    | (s1, .error e) => (s1, .error e)
    | (s1, .ok _) =>
      match progressSteps InitStep.program_build env.build_output
          (uniqueBuildPaths env entries) with
      | (s2, .error e) => (s1 ++ s2, .error e)
      | (s2, .ok _) =>
        match progressSteps InitStep.artifact_deploy env.deploy_output
            (elfsOf entries) with
        | (s3, r) => (s1 ++ s2 ++ s3, r)

/-- `Framework::initialize`: the full pipeline, returning the executed
steps in order and the `Result`. -/
def initPipeline (env : InitEnv) : List InitStep × Except (List Char) Unit :=
  match env.check_toolset with
  | .error e => ([InitStep.toolset_check], .error e)
  | .ok _ =>
    match env.map_program_names with
    | .error e => ([InitStep.toolset_check, InitStep.name_mapping], .error e)
    | .ok _ =>
      if env.deploy_dir_exists then
        ([InitStep.toolset_check, InitStep.name_mapping,
            InitStep.validator_start] ++ (initRest env).1,
          (initRest env).2)
      else
        match env.bootstrap_build with
        | .error e =>
          ([InitStep.toolset_check, InitStep.name_mapping,
              InitStep.validator_start, InitStep.bootstrap_build], .error e)
        | .ok _ =>
          ([InitStep.toolset_check, InitStep.name_mapping,
              InitStep.validator_start, InitStep.bootstrap_build]
              ++ (initRest env).1,
            (initRest env).2)

/-- All stages of the pipeline succeed for this environment. -/
def InitAllOk (env : InitEnv) : Prop :=
  env.check_toolset = .ok () ∧ env.map_program_names = .ok () ∧
  (env.deploy_dir_exists = false → env.bootstrap_build = .ok ()) ∧
  ∃ entries, env.read_deploy_dir = .ok entries ∧
    (∀ kp ∈ keypairsOf entries, env.update_program_id kp = .ok ()) ∧
    (∀ bp ∈ uniqueBuildPaths env entries, env.build_output bp = .ok ()) ∧
    (∀ ep ∈ elfsOf entries, env.deploy_output ep = .ok ())

/-- A concrete initialization environment in which a single keypair's
identity sync fails while everything else would succeed. -/
def envInitSyncFail : InitEnv where
  check_toolset := .ok ()
  map_program_names := .ok ()
  deploy_dir_exists := true
  bootstrap_build := .ok ()
  read_deploy_dir := .ok ["k-keypair.json".data, "k.so".data]
  get_program_path := fun _ => some "prog".data
  update_program_id := fun _ => .error "bad keypair".data
  build_output := fun _ => .ok ()
  deploy_output := fun _ => .ok ()

/-- A concrete initialization environment in which every stage succeeds. -/
def envInitOk : InitEnv where
  check_toolset := .ok ()
  map_program_names := .ok ()
  deploy_dir_exists := true
  bootstrap_build := .ok ()
  read_deploy_dir := .ok ["k-keypair.json".data, "k.so".data]
  get_program_path := fun _ => some "prog".data
  update_program_id := fun _ => .ok ()
  build_output := fun _ => .ok ()
  deploy_output := fun _ => .ok ()

/-! ### `framework_utils.rs` with `frameworks/native.rs`: build-tool
selection -/

/-- The probe capability: whether running a command line exits 0. -/
structure ToolEnv where
  command_success : List Char → Bool

/-- `WCommand::exists`: run `<cmd> --version`, succeed iff the exit code is
0 (spawn failures count as absent). -/
def command_exists (env : ToolEnv) (cmd : List Char) : Bool :=
  env.command_success (cmd ++ " --version".data)

/-- `get_bpf_or_sbf`: probe `cargo build-sbf` then `cargo build-bpf`,
returning the first installed command, or `CommandNotFound("solana")` when
neither probe succeeds.  The second component is the list of probe command
lines actually run, in order. -/
def get_bpf_or_sbf (env : ToolEnv) :
    Except (List Char) (List Char) × List (List Char) :=
  if command_exists env "cargo build-sbf".data then
    (.ok "cargo build-sbf".data, ["cargo build-sbf --version".data])
  else if command_exists env "cargo build-bpf".data then
    (.ok "cargo build-bpf".data,
      ["cargo build-sbf --version".data, "cargo build-bpf --version".data])
  else
    (.error "solana".data,
      ["cargo build-sbf --version".data, "cargo build-bpf --version".data])

/-- The `Native` framework's cached state: the selected full build command
(`BuildCommand`, default `cargo build-sbf`). -/
structure NativeState where
  build_cmd : List Char
deriving DecidableEq

/-- A command line plus its working directory (`WCommand` with
`current_dir`). -/
structure WCommandSpec where
  line : List Char
  cwd : Option (List Char)
deriving DecidableEq

/-- `Native::check_toolset`: select the build tool and cache it in the
state (`self.build_cmd.set(build_cmd)`). -/
def Native.check_toolset (env : ToolEnv) (_st : NativeState) :
    Except (List Char) NativeState × List (List Char) :=
  match get_bpf_or_sbf env with
  | (.ok cmd, probes) => (.ok { build_cmd := cmd }, probes)
  | (.error e, probes) => (.error e, probes)

/-- `Native::build`: run the cached build command in the program's
directory. -/
def Native.build (st : NativeState) (program_path : List Char) : WCommandSpec :=
  { line := st.build_cmd, cwd := some program_path }

/-- A concrete toolchain in which only `cargo build-bpf` is installed. -/
def envToolBpfOnly : ToolEnv :=
  ⟨fun c => c = "cargo build-bpf --version".data⟩

/-! ### `frameworks/mod.rs` and `main.rs`: framework detection -/

/-- The three framework variants. -/
inductive FrameworkKind
  | seahorse | anchor | native
deriving DecidableEq

/-- `get_framework_from_path`: examine the root directory's entry names;
`programs_py` selects Seahorse, else `Anchor.toml` selects Anchor, else
`Cargo.toml` selects Native, else `InvalidProgramDirectory(origin)`.  The
directory listing is passed in as `item_names`. -/
def get_framework_from_path (origin : List Char)
    (item_names : List (List Char)) : Except (List Char) FrameworkKind :=
  if "programs_py".data ∈ item_names then .ok .seahorse
  else if "Anchor.toml".data ∈ item_names then .ok .anchor
  else if "Cargo.toml".data ∈ item_names then .ok .native
  else .error origin

/-- `main.rs`: detect the framework, then start watching; the second
component records whether `watch` was ever entered. -/
def mainFlow (origin : List Char) (item_names : List (List Char)) :
    Except (List Char) FrameworkKind × Bool :=
  match get_framework_from_path origin item_names with
  | .ok fw => (.ok fw, true)
  | .error e => (.error e, false)

/-! ### `framework_utils.rs`: `find_and_update_program_id` -/

/-- Filesystem and subprocess capabilities used by the identity sync:
reading a file, the (external) glob of `src/*.rs`, and the
`solana address -k` lookup. -/
structure SyncEnv where
  read : List Char → Except (List Char) (List Char)
  glob_rs : List (List Char)
  pubkey : List Char → Except (List Char) (List Char)

/-- A filesystem operation performed by the identity sync. -/
inductive FsOp
  | read_file (path : List Char)
  | write_file (path : List Char) (content : List Char)
deriving DecidableEq

/-- `update_rust_program_id` at the filesystem level: read the file
(propagating the read error), patch with the `declare_id!` regex, and write
back only when a change was made.  Returns whether the id was updated plus
the trace of filesystem operations. -/
def update_rust_program_id_fs (env : SyncEnv) (path program_id : List Char) :
    Except (List Char) Bool × List FsOp :=
  match env.read path with
  | .error e => (.error e, [.read_file path])
  | .ok content =>
    if (update_rust_program_id content program_id).2 then
      (.ok true,
        [.read_file path,
          .write_file path (update_rust_program_id content program_id).1])
    else (.ok false, [.read_file path])

/-- The fallback loop of `find_and_update_program_id` over the remaining
`src/*.rs` files: stop at the first file whose id was updated, propagate
the first error. -/
def syncLoop (env : SyncEnv) (program_id : List Char) :
    List (List Char) → Except (List Char) Unit × List FsOp
  | [] => (.ok (), [])
  | path :: rest =>
    match update_rust_program_id_fs env path program_id with
    | (.ok true, ops) => (.ok (), ops)
    | (.ok false, ops) =>
      ((syncLoop env program_id rest).1,
        ops ++ (syncLoop env program_id rest).2)
    | (.error e, ops) => (.error e, ops)

/-- `find_and_update_program_id`: derive the id from the keypair, try
`src/lib.rs` first (any error propagates via `?`), and only on a clean
"no declaration found" fall through to the glob of the other `src/*.rs`
files. -/
def find_and_update_program_id (env : SyncEnv)
    (program_path program_keypair_path : List Char) :
    Except (List Char) Unit × List FsOp :=
  match env.pubkey program_keypair_path with
  | .error e => (.error e, [])
  | .ok program_id =>
    match update_rust_program_id_fs env
        (program_path ++ "/src/lib.rs".data) program_id with
    | (.ok true, ops) => (.ok (), ops)
    | (.ok false, ops) =>
      ((syncLoop env program_id env.glob_rs).1,
        ops ++ (syncLoop env program_id env.glob_rs).2)
    | (.error e, ops) => (.error e, ops)

/-- A concrete sync environment: `src/lib.rs` is unreadable while another
source file under `src/` contains a valid `declare_id!` declaration. -/
def envSyncNoLib : SyncEnv where
  read := fun p =>
    if p = "prog/src/lib.rs".data then .error "no lib.rs".data
    else if p = "prog/src/other.rs".data then .ok "declare_id!(\"old\")".data
    else .error "missing".data
  glob_rs := ["prog/src/other.rs".data]
  pubkey := fun _ => .ok "NEW".data

/-! ### Lemmas about the character-list utilities -/

theorem leadsWith_append (p r : List Char) : leadsWith (p ++ r) p = true := by
  induction p with
  | nil => cases r <;> rfl
  | cons c cs ih => simp [leadsWith, ih]

theorem hasSuffix_append (a suf : List Char) : hasSuffix (a ++ suf) suf = true := by
  unfold hasSuffix
  rw [List.reverse_append]
  exact leadsWith_append _ _

theorem leadsWith_eq_append {l p : List Char} (h : leadsWith l p = true) :
    ∃ r, l = p ++ r := by
  induction p generalizing l with
  | nil => exact ⟨l, rfl⟩
  | cons d ds ih =>
    cases l with
    | nil => simp [leadsWith] at h
    | cons c cs =>
      simp only [leadsWith, Bool.and_eq_true, decide_eq_true_eq] at h
      obtain ⟨r, hr⟩ := ih h.2
      exact ⟨r, by simp [h.1, hr]⟩

theorem hasSuffix_eq_append {l suf : List Char} (h : hasSuffix l suf = true) :
    ∃ a, l = a ++ suf := by
  obtain ⟨r, hr⟩ := leadsWith_eq_append h
  refine ⟨r.reverse, ?_⟩
  have := congrArg List.reverse hr
  simpa using this

theorem takeWhile_all (p : Char → Bool) (l : List Char) (h : ∀ x ∈ l, p x = true) :
    l.takeWhile p = l := by
  induction l with
  | nil => rfl
  | cons c cs ih =>
    have hc : p c = true := h c (by simp)
    simp [List.takeWhile_cons, hc, ih fun x hx => h x (by simp [hx])]

theorem takeWhile_append_of_break (p : Char → Bool) (a b : List Char)
    (h : a.all p = false) : (a ++ b).takeWhile p = a.takeWhile p := by
  induction a with
  | nil => simp [List.all_nil] at h
  | cons c cs ih =>
    by_cases hc : p c = true
    · have hcs : cs.all p = false := by
        simpa [List.all_cons, hc] using h
      simp [List.takeWhile_cons, hc, ih hcs]
    · have hc' : p c = false := by
        cases hpc : p c with
        | false => rfl
        | true => exact absurd hpc hc
      simp [List.takeWhile_cons, hc']

theorem fileNameOf_no_slash (l : List Char) (h : '/' ∉ l) : fileNameOf l = l := by
  unfold fileNameOf
  rw [takeWhile_all]
  · simp
  · intro x hx
    have : x ∈ l := by simpa using hx
    simp only [decide_eq_true_eq]
    intro hx'
    exact h (hx' ▸ this)

theorem take_append_self (a b : List Char) : (a ++ b).take a.length = a := by
  induction a with
  | nil => rfl
  | cons c cs ih => simp [List.take_succ_cons, ih]

theorem trimEndAux_no_suffix (suf : List Char) (f : Nat) (l : List Char)
    (h : hasSuffix l suf = false) : trimEndAux suf f l = l := by
  cases f with
  | zero => rfl
  | succ g =>
    unfold trimEndAux
    rw [if_neg]
    intro hc
    rw [hc.2] at h
    exact absurd h (by simp)

theorem trimEndMatches_append (a suf : List Char) (hs : suf ≠ [])
    (h : hasSuffix a suf = false) : trimEndMatches (a ++ suf) suf = a := by
  unfold trimEndMatches
  have hlen : (a ++ suf).length = (a.length + suf.length - 1) + 1 := by
    have : 1 ≤ suf.length := by
      cases suf with
      | nil => exact absurd rfl hs
      | cons c cs => simp
    simp only [List.length_append]
    omega
  rw [hlen]
  unfold trimEndAux
  rw [if_pos ⟨hs, hasSuffix_append a suf⟩]
  have hsub : (a ++ suf).length - suf.length = a.length := by
    simp only [List.length_append]; omega
  rw [hsub, take_append_self]
  exact trimEndAux_no_suffix _ _ _ h

theorem pathExt_append_keypair (D : List Char) (h : '/' ∉ D) :
    pathExt (D ++ "-keypair.json".data) = some "json".data := by
  have hns : '/' ∉ D ++ "-keypair.json".data := by
    intro hmem
    rcases List.mem_append.mp hmem with h1 | h2
    · exact h h1
    · revert h2; decide
  simp only [pathExt]
  rw [fileNameOf_no_slash _ hns, List.reverse_append,
    takeWhile_append_of_break _ _ _ (by decide)]
  have hjson : (("-keypair.json".data.reverse.takeWhile (· ≠ '.')).reverse : List Char)
      = "json".data := by decide
  rw [hjson]
  have hlen : (D ++ "-keypair.json".data).length = D.length + 13 := by
    simp [List.length_append]
  have h4 : ("json".data : List Char).length = 4 := by decide
  rw [if_neg (by rw [hlen, h4]; omega), if_neg (by rw [hlen, h4]; omega)]

theorem pathExt_append_so (D : List Char) (h : '/' ∉ D) (hne : D ≠ []) :
    pathExt (D ++ ".so".data) = some "so".data := by
  have hns : '/' ∉ D ++ ".so".data := by
    intro hmem
    rcases List.mem_append.mp hmem with h1 | h2
    · exact h h1
    · revert h2; decide
  have hlen1 : 1 ≤ D.length := by
    cases D with
    | nil => exact absurd rfl hne
    | cons c cs => simp
  simp only [pathExt]
  rw [fileNameOf_no_slash _ hns, List.reverse_append,
    takeWhile_append_of_break _ _ _ (by decide)]
  have hso : ((".so".data.reverse.takeWhile (· ≠ '.')).reverse : List Char)
      = "so".data := by decide
  rw [hso]
  have hlen : (D ++ ".so".data).length = D.length + 3 := by
    simp [List.length_append]
  have h2 : ("so".data : List Char).length = 2 := by decide
  rw [if_neg (by rw [hlen, h2]; omega), if_neg (by rw [hlen, h2]; omega)]

theorem from_keypair_path_append (D : List Char) (hs : '/' ∉ D)
    (h : hasSuffix D "-keypair.json".data = false) :
    ProgramName.from_keypair_path (D ++ "-keypair.json".data) = some D := by
  have hns : '/' ∉ D ++ "-keypair.json".data := by
    intro hmem
    rcases List.mem_append.mp hmem with h1 | h2
    · exact hs h1
    · revert h2; decide
  unfold ProgramName.from_keypair_path ProgramName.from_path
  rw [fileNameOf_no_slash _ hns, hasSuffix_append, if_pos rfl,
    trimEndMatches_append _ _ (by decide) h]

theorem from_elf_path_append (D : List Char) (hs : '/' ∉ D)
    (h : hasSuffix D ".so".data = false) :
    ProgramName.from_elf_path (D ++ ".so".data) = some D := by
  have hns : '/' ∉ D ++ ".so".data := by
    intro hmem
    rcases List.mem_append.mp hmem with h1 | h2
    · exact hs h1
    · revert h2; decide
  unfold ProgramName.from_elf_path ProgramName.from_path
  rw [fileNameOf_no_slash _ hns, hasSuffix_append, if_pos rfl,
    trimEndMatches_append _ _ (by decide) h]

theorem get_program_path_keypair (m : ProjectMap) (D : List Char) (hs : '/' ∉ D)
    (h : hasSuffix D "-keypair.json".data = false) :
    ProjectMap.get_program_path m (D ++ "-keypair.json".data) =
      match m D with
      | some p => some p
      | none => m (kebab_case D) := by
  simp only [ProjectMap.get_program_path, pathExt_append_keypair D hs,
    from_keypair_path_append D hs h]
  simp

theorem get_program_path_elf (m : ProjectMap) (D : List Char) (hs : '/' ∉ D)
    (hne : D ≠ []) (h : hasSuffix D ".so".data = false) :
    ProjectMap.get_program_path m (D ++ ".so".data) =
      match m D with
      | some p => some p
      | none => m (kebab_case D) := by
  simp only [ProjectMap.get_program_path, pathExt_append_so D hs hne,
    from_elf_path_append D hs h]
  simp


/-! ### Lemmas about the `declare_id!` pattern parser -/

theorem takeWordRun_append (s : List Char) :
    (takeWordRun s).1 ++ (takeWordRun s).2 = s := by
  induction s with
  | nil => rfl
  | cons c cs ih =>
    by_cases hc : isWordChar c = true
    · simp [takeWordRun, hc, ih]
    · simp [takeWordRun, hc]

theorem takeWordRun_words (s : List Char) :
    ∀ c ∈ (takeWordRun s).1, isWordChar c = true := by
  induction s with
  | nil => intro c hc; simp [takeWordRun] at hc
  | cons c cs ih =>
    intro x hx
    by_cases hc : isWordChar c = true
    · simp [takeWordRun, hc] at hx
      rcases hx with hx | hx
      · exact hx ▸ hc
      · exact ih x hx
    · simp [takeWordRun, hc] at hx

theorem takeWordRun_break (s : List Char) :
    ∀ c cs, (takeWordRun s).2 = c :: cs → isWordChar c = false := by
  induction s with
  | nil => intro c cs h; simp [takeWordRun] at h
  | cons d ds ih =>
    intro c cs h
    by_cases hd : isWordChar d = true
    · simp only [takeWordRun, hd, if_true] at h
      exact ih c cs h
    · have hd' : isWordChar d = false := by simpa using hd
      simp only [takeWordRun, hd', Bool.false_eq_true, if_false] at h
      injection h with h1 h2
      exact h1 ▸ hd'

theorem takeWordRun_exact (w r : List Char)
    (hw : ∀ c ∈ w, isWordChar c = true)
    (hr : ∀ c cs, r = c :: cs → isWordChar c = false) :
    takeWordRun (w ++ r) = (w, r) := by
  induction w with
  | nil =>
    cases r with
    | nil => rfl
    | cons c cs => simp [takeWordRun, hr c cs rfl]
  | cons c w' ih =>
    have hc := hw c (by simp)
    simp [takeWordRun, hc, ih fun x hx => hw x (by simp [hx])]

theorem stripLit_append (p r : List Char) : stripLit p (p ++ r) = some r := by
  induction p with
  | nil => rfl
  | cons c cs ih => simp [stripLit, ih]

theorem stripLit_eq {p s r : List Char} (h : stripLit p s = some r) :
    s = p ++ r := by
  induction p generalizing s with
  | nil =>
    simp only [stripLit, Option.some.injEq] at h
    simp [h]
  | cons c cs ih =>
    cases s with
    | nil => simp [stripLit] at h
    | cons d ds =>
      by_cases hcd : c = d
      · subst hcd
        simp only [stripLit, if_pos rfl] at h
        simp [ih h]
      · simp [stripLit, hcd] at h

theorem parseGroupsAux_sound (f : Nat) :
    ∀ s g r, parseGroupsAux f s = (g, r) → s = g ++ r ∧ GroupsStr g := by
  induction f with
  | zero =>
    intro s g r h
    simp only [parseGroupsAux, Prod.mk.injEq] at h
    exact ⟨by rw [← h.1, ← h.2]; rfl, h.1 ▸ GroupsStr.nil⟩
  | succ f ih =>
    intro s g r h
    simp only [parseGroupsAux] at h
    split at h
    · rename_i c w a b rest2 heq
      split at h
      · rename_i hab
        obtain ⟨ha, hb⟩ := hab
        subst ha; subst hb
        have hrec := ih rest2 (parseGroupsAux f rest2).1 (parseGroupsAux f rest2).2 rfl
        have hs : s = c :: w ++ ':' :: ':' :: rest2 := by
          have := takeWordRun_append s
          rw [heq] at this
          exact this.symm
        have hwords : ∀ x ∈ c :: w, isWordChar x = true := by
          have := takeWordRun_words s
          rw [heq] at this
          exact this
        simp only [Prod.mk.injEq] at h
        constructor
        · rw [hs, ← h.1, ← h.2]
          simp only [List.cons_append, List.append_assoc]
          rw [← hrec.1]
        · rw [← h.1]
          exact GroupsStr.cons c w _ (hwords c (by simp))
            (fun x hx => hwords x (by simp [hx])) hrec.2
      · simp only [Prod.mk.injEq] at h
        exact ⟨by rw [← h.1, ← h.2]; rfl, h.1 ▸ GroupsStr.nil⟩
    · simp only [Prod.mk.injEq] at h
      exact ⟨by rw [← h.1, ← h.2]; rfl, h.1 ▸ GroupsStr.nil⟩

theorem parseGroupsAux_groups (g : List Char) (hg : GroupsStr g) :
    ∀ (y : List Char) (f : Nat), g.length + y.length + 11 ≤ f →
      parseGroupsAux f (g ++ "declare_id!".data ++ y)
        = (g, "declare_id!".data ++ y) := by
  induction hg with
  | nil =>
    intro y f hf
    simp only [List.length_nil, List.nil_append] at hf ⊢
    cases f with
    | zero => omega
    | succ f' => cases y with
      | nil => rfl
      | cons b y' => rfl
  | cons c w g' hc hw hg' ih =>
    intro y f hf
    have hcw : ∀ x ∈ c :: w, isWordChar x = true := by
      intro x hx
      rcases List.mem_cons.mp hx with h | h
      · exact h ▸ hc
      · exact hw x h
    have hlen : (c :: w ++ ':' :: ':' :: g').length = w.length + 3 + g'.length := by
      simp [List.length_append]
      omega
    cases f with
    | zero => rw [hlen] at hf; omega
    | succ f' =>
      have hshape : (c :: w ++ ':' :: ':' :: g') ++ "declare_id!".data ++ y
          = (c :: w) ++ (':' :: ':' :: (g' ++ "declare_id!".data ++ y)) := by
        simp only [List.cons_append, List.append_assoc]
      have htw : takeWordRun ((c :: w ++ ':' :: ':' :: g') ++ "declare_id!".data ++ y)
          = (c :: w, ':' :: ':' :: (g' ++ "declare_id!".data ++ y)) := by
        rw [hshape]
        exact takeWordRun_exact (c :: w) _ hcw
          (fun d ds hds => by injection hds with h1 _; rw [← h1]; decide)
      have hrec := ih y f' (by rw [hlen] at hf; simp [List.length_append] at hf ⊢; omega)
      simp only [parseGroupsAux, htw]
      rw [if_pos (by simp), hrec]

theorem parseLine_sound {l p w q : List Char} (h : parseLine l = some (p, w, q)) :
    l = p ++ w ++ q ∧ (∀ c ∈ w, isWordChar c = true) ∧
      ∃ g t, GroupsStr g ∧ p = g ++ litDeclare ∧ q = litClose ++ t := by
  unfold parseLine at h
  split at h
  · exact absurd h (by simp)
  · rename_i r2 heq1
    split at h
    · exact absurd h (by simp)
    · rename_i t heq2
      simp only [Option.some.injEq, Prod.mk.injEq] at h
      obtain ⟨hp, hw, hq⟩ := h
      have hpgs := parseGroupsAux_sound l.length l (parseGroups l).1 (parseGroups l).2 rfl
      have h1 : (parseGroups l).2 = litDeclare ++ r2 := stripLit_eq heq1
      have h2 : (takeWordRun r2).2 = litClose ++ t := stripLit_eq heq2
      have h3 := takeWordRun_append r2
      refine ⟨?_, ?_, (parseGroups l).1, t, hpgs.2, hp.symm, hq.symm⟩
      · rw [← hp, ← hw, ← hq]
        conv_lhs => rw [hpgs.1, h1, ← h3, h2]
        simp [List.append_assoc]
      · rw [← hw]; exact takeWordRun_words r2

theorem parseLine_build (g X t : List Char) (hg : GroupsStr g)
    (hX : ∀ c ∈ X, isWordChar c = true) :
    parseLine (g ++ litDeclare ++ X ++ litClose ++ t)
      = some (g ++ litDeclare, X, litClose ++ t) := by
  have h11 : ("declare_id!".data : List Char).length = 11 := by decide
  have hsplit : (litDeclare : List Char) = "declare_id!".data ++ ['(', '\"'] := by decide
  have hclose : (litClose : List Char) = ['\"', ')'] := by decide
  have hshape : g ++ litDeclare ++ X ++ litClose ++ t
      = g ++ "declare_id!".data ++ ('(' :: '\"' :: (X ++ (litClose ++ t))) := by
    rw [hsplit]; simp [List.append_assoc]
  have hfuel : g.length + ('(' :: '\"' :: (X ++ (litClose ++ t))).length + 11
      ≤ (g ++ "declare_id!".data ++ ('(' :: '\"' :: (X ++ (litClose ++ t)))).length := by
    simp [List.length_append, h11]
    omega
  have hpg : parseGroups (g ++ litDeclare ++ X ++ litClose ++ t)
      = (g, "declare_id!".data ++ ('(' :: '\"' :: (X ++ (litClose ++ t)))) := by
    unfold parseGroups
    rw [hshape]
    exact parseGroupsAux_groups g hg _ _ hfuel
  have hstrip1 : stripLit litDeclare
      ("declare_id!".data ++ ('(' :: '\"' :: (X ++ (litClose ++ t))))
      = some (X ++ (litClose ++ t)) := by
    have harg : "declare_id!".data ++ ('(' :: '\"' :: (X ++ (litClose ++ t)))
        = litDeclare ++ (X ++ (litClose ++ t)) := by
      rw [hsplit]; simp [List.append_assoc]
    rw [harg, stripLit_append]
  have htw : takeWordRun (X ++ (litClose ++ t)) = (X, litClose ++ t) := by
    refine takeWordRun_exact X _ hX ?_
    intro d ds hds
    rw [hclose] at hds
    injection hds with h1 _
    rw [← h1]; decide
  have hstrip2 : stripLit litClose (litClose ++ t) = some t := stripLit_append _ _
  simp only [parseLine, hpg, hstrip1, htw, hstrip2]

theorem parseLine_stable {l p w q X : List Char} (h : parseLine l = some (p, w, q))
    (hX : ∀ c ∈ X, isWordChar c = true) :
    parseLine (p ++ X ++ q) = some (p, X, q) := by
  obtain ⟨hl, hword, g, t, hg, hp, hq⟩ := parseLine_sound h
  subst hp
  subst hq
  have hassoc : (g ++ litDeclare) ++ X ++ (litClose ++ t)
      = g ++ litDeclare ++ X ++ litClose ++ t := by
    simp [List.append_assoc]
  rw [hassoc]
  exact parseLine_build g X t hg hX

theorem splitLines_ne_nil (c : List Char) : splitLines c ≠ [] := by
  cases c with
  | nil => simp [splitLines]
  | cons d rest =>
    by_cases hd : d = '\n'
    · simp [splitLines, hd]
    · rw [splitLines, if_neg hd]
      split <;> simp

theorem splitLines_no_newline (c : List Char) :
    ∀ l ∈ splitLines c, '\n' ∉ l := by
  induction c with
  | nil =>
    intro l hl
    simp [splitLines] at hl
    simp [hl]
  | cons d rest ih =>
    intro l hl
    by_cases hd : d = '\n'
    · rw [splitLines, if_pos hd] at hl
      rcases List.mem_cons.mp hl with h | h
      · simp [h]
      · exact ih l h
    · rw [splitLines, if_neg hd] at hl
      rcases hsr : splitLines rest with _ | ⟨l0, ls⟩
      · rw [hsr] at hl
        simp at hl
        subst hl
        simp
        exact fun hh => hd hh.symm
      · rw [hsr] at hl
        rcases List.mem_cons.mp hl with h | h
        · subst h
          intro hmem
          rcases List.mem_cons.mp hmem with h1 | h1
          · exact hd h1.symm
          · exact ih l0 (by rw [hsr]; simp) h1
        · exact ih l (by rw [hsr]; simp [h])

theorem tailJoin_of_ne_nil {ls : List (List Char)} (h : ls ≠ []) :
    tailJoin ls = '\n' :: joinLines ls := by
  cases ls with
  | nil => exact absurd rfl h
  | cons l t => rfl

theorem joinLines_splitLines (c : List Char) : joinLines (splitLines c) = c := by
  induction c with
  | nil => rfl
  | cons d rest ih =>
    by_cases hd : d = '\n'
    · rw [splitLines, if_pos hd]
      rw [joinLines, List.nil_append, tailJoin_of_ne_nil (splitLines_ne_nil rest), ih, hd]
    · rw [splitLines, if_neg hd]
      rcases hsr : splitLines rest with _ | ⟨l0, ls⟩
      · exact absurd hsr (splitLines_ne_nil rest)
      · rw [hsr] at ih
        rw [joinLines, List.cons_append]
        rw [joinLines] at ih
        rw [ih]

theorem splitLines_nf (a : List Char) (h : '\n' ∉ a) : splitLines a = [a] := by
  induction a with
  | nil => rfl
  | cons c cs ih =>
    have hc : c ≠ '\n' := fun hcc => h (by simp [hcc])
    rw [splitLines, if_neg hc, ih fun hm => h (by simp [hm])]

theorem splitLines_append_cons (a : List Char) (ha : '\n' ∉ a) :
    ∀ s h t, splitLines s = h :: t → splitLines (a ++ s) = (a ++ h) :: t := by
  induction a with
  | nil => intro s h t hs; simpa using hs
  | cons c a' ih =>
    intro s h t hs
    have hc : c ≠ '\n' := fun hcc => ha (by simp [hcc])
    rw [List.cons_append, splitLines, if_neg hc,
      ih (fun hm => ha (by simp [hm])) s h t hs]
    rfl

theorem splitLines_line_join (ls : List (List Char))
    (hls : ∀ l ∈ ls, '\n' ∉ l) :
    ∀ a, '\n' ∉ a → splitLines (a ++ tailJoin ls) = a :: ls := by
  induction ls with
  | nil =>
    intro a ha
    rw [tailJoin, List.append_nil, splitLines_nf a ha]
  | cons m ms ih =>
    intro a ha
    have hm : '\n' ∉ m := hls m (by simp)
    have hms : ∀ l ∈ ms, '\n' ∉ l := fun l hl => hls l (by simp [hl])
    have hX : splitLines (m ++ tailJoin ms) = m :: ms := ih hms m hm
    have hnl : splitLines ('\n' :: (m ++ tailJoin ms)) = [] :: (m :: ms) := by
      rw [splitLines, if_pos rfl, hX]
    have hres := splitLines_append_cons a ha ('\n' :: (m ++ tailJoin ms)) [] (m :: ms) hnl
    rw [tailJoin]
    rw [List.append_nil] at hres
    exact hres

theorem findCaptureLines_sound :
    ∀ (ls : List (List Char)) p w q,
      findCaptureLines ls = some (p, w, q) → joinLines ls = p ++ w ++ q := by
  intro ls
  induction ls with
  | nil => intro p w q h; simp [findCaptureLines] at h
  | cons l t ih =>
    intro p w q h
    simp only [findCaptureLines] at h
    split at h
    · rename_i p0 w0 q0 hpl
      simp only [Option.some.injEq, Prod.mk.injEq] at h
      obtain ⟨hp, hw, hq⟩ := h
      obtain ⟨hl, _, _⟩ := parseLine_sound hpl
      rw [← hp, ← hw, ← hq, joinLines, hl]
      simp [List.append_assoc]
    · split at h
      · rename_i p' w' q' hrec
        simp only [Option.some.injEq, Prod.mk.injEq] at h
        obtain ⟨hp, hw, hq⟩ := h
        have hjoin := ih p' w' q' hrec
        have htne : t ≠ [] := by
          intro hte
          rw [hte] at hrec
          simp [findCaptureLines] at hrec
        rw [← hp, ← hw, ← hq, joinLines, tailJoin_of_ne_nil htne, hjoin]
        simp [List.append_assoc]
      · exact absurd h (by simp)

theorem findCaptureLines_stable :
    ∀ (ls : List (List Char)), (∀ l ∈ ls, '\n' ∉ l) →
      ∀ p w q X, findCaptureLines ls = some (p, w, q) →
        (∀ c ∈ X, isWordChar c = true) →
        findCaptureLines (splitLines (p ++ X ++ q)) = some (p, X, q) := by
  intro ls
  induction ls with
  | nil => intro _ p w q X h _; simp [findCaptureLines] at h
  | cons l t ih =>
    intro hnf p w q X h hX
    have hlnf : '\n' ∉ l := hnf l (by simp)
    have htnf : ∀ m ∈ t, '\n' ∉ m := fun m hm => hnf m (by simp [hm])
    have hXnf : '\n' ∉ X := fun hm => absurd (hX '\n' hm) (by decide)
    simp only [findCaptureLines] at h
    split at h
    · rename_i p0 w0 q0 hpl
      simp only [Option.some.injEq, Prod.mk.injEq] at h
      obtain ⟨hp, hw, hq⟩ := h
      obtain ⟨hl, hw0, _⟩ := parseLine_sound hpl
      have hp0nf : '\n' ∉ p0 := fun hm => hlnf (by rw [hl]; simp [hm])
      have hq0nf : '\n' ∉ q0 := fun hm => hlnf (by rw [hl]; simp [hm])
      have hline_nf : '\n' ∉ p0 ++ X ++ q0 := by
        intro hm
        rcases List.mem_append.mp hm with hm1 | hm2
        · rcases List.mem_append.mp hm1 with hm3 | hm4
          · exact hp0nf hm3
          · exact hXnf hm4
        · exact hq0nf hm2
      have hsplit : splitLines (p ++ X ++ q) = (p0 ++ X ++ q0) :: t := by
        rw [← hp, ← hq]
        have hx : p0 ++ X ++ (q0 ++ tailJoin t) = (p0 ++ X ++ q0) ++ tailJoin t := by
          simp [List.append_assoc]
        rw [hx]
        exact splitLines_line_join t htnf _ hline_nf
      rw [hsplit]
      simp only [findCaptureLines, parseLine_stable hpl hX]
      rw [hp, hq]
    · rename_i hplnone
      split at h
      · rename_i p' w' q' hrec
        simp only [Option.some.injEq, Prod.mk.injEq] at h
        obtain ⟨hp, hw, hq⟩ := h
        have hre : p ++ X ++ q = l ++ ('\n' :: (p' ++ X ++ q')) := by
          rw [← hp, ← hq]
          simp [List.append_assoc]
        have hihres := ih htnf p' w' q' X hrec hX
        have hsY : splitLines ('\n' :: (p' ++ X ++ q'))
            = [] :: splitLines (p' ++ X ++ q') := by
          rw [splitLines, if_pos rfl]
        have hsl : splitLines (p ++ X ++ q) = l :: splitLines (p' ++ X ++ q') := by
          rw [hre]
          have hstep := splitLines_append_cons l hlnf _ _ _ hsY
          simpa using hstep
        rw [hsl]
        simp only [findCaptureLines, hplnone, hihres]
        rw [hp, hq]
      · exact absurd h (by simp)

theorem rustDeclareIdCapture_sound {content p w q : List Char}
    (h : rustDeclareIdCapture content = some (p, w, q)) :
    content = p ++ w ++ q := by
  have hres := findCaptureLines_sound (splitLines content) p w q h
  rw [joinLines_splitLines] at hres
  exact hres

theorem rustDeclareIdCapture_stable {content p w q X : List Char}
    (h : rustDeclareIdCapture content = some (p, w, q))
    (hX : ∀ c ∈ X, isWordChar c = true) :
    rustDeclareIdCapture (p ++ X ++ q) = some (p, X, q) :=
  findCaptureLines_stable (splitLines content) (splitLines_no_newline content)
    p w q X h hX

/-! ### Lemmas about the initialization pipeline -/

theorem progressSteps_ok_iff (mk : List Char → InitStep)
    (cb : List Char → Except (List Char) Unit) :
    ∀ xs, (progressSteps mk cb xs).2 = .ok () ↔ ∀ x ∈ xs, cb x = .ok () := by
  intro xs
  induction xs with
  | nil => simp [progressSteps]
  | cons x xs ih =>
    cases hc : cb x with
    | ok u =>
      cases u
      simp only [progressSteps, hc]
      constructor
      · intro h y hy
        rcases List.mem_cons.mp hy with rfl | hyr
        · exact hc
        · exact (ih.mp h) y hyr
      · intro h
        exact ih.mpr fun y hy => h y (by simp [hy])
    | error e =>
      simp only [progressSteps, hc]
      constructor
      · intro h
        exact absurd h (by simp)
      · intro h
        have hx := h x (by simp)
        rw [hc] at hx
        exact absurd hx (by simp)

theorem progressSteps_mem (mk : List Char → InitStep)
    (cb : List Char → Except (List Char) Unit) :
    ∀ xs s, s ∈ (progressSteps mk cb xs).1 → ∃ x ∈ xs, s = mk x := by
  intro xs
  induction xs with
  | nil => intro s h; simp [progressSteps] at h
  | cons x xs ih =>
    intro s h
    cases hc : cb x with
    | ok u =>
      simp only [progressSteps, hc] at h
      rcases List.mem_cons.mp h with rfl | hr
      · exact ⟨x, by simp, rfl⟩
      · obtain ⟨y, hy, hs⟩ := ih s hr
        exact ⟨y, by simp [hy], hs⟩
    | error e =>
      simp only [progressSteps, hc] at h
      simp at h
      exact ⟨x, by simp, h⟩

theorem initRest_ok_iff (env : InitEnv) :
    (initRest env).2 = .ok () ↔
      ∃ entries, env.read_deploy_dir = .ok entries ∧
        (∀ kp ∈ keypairsOf entries, env.update_program_id kp = .ok ()) ∧
        (∀ bp ∈ uniqueBuildPaths env entries, env.build_output bp = .ok ()) ∧
        (∀ ep ∈ elfsOf entries, env.deploy_output ep = .ok ()) := by
  unfold initRest
  cases hr : env.read_deploy_dir with
  | error e =>
    constructor
    · intro h
      exact absurd h (by simp)
    · rintro ⟨entries, he, _⟩
      exact absurd he (by simp)
  | ok entries =>
    rcases hs1 : progressSteps InitStep.identity_sync env.update_program_id
        (keypairsOf entries) with ⟨s1, r1⟩
    have hiff1 := progressSteps_ok_iff InitStep.identity_sync
      env.update_program_id (keypairsOf entries)
    rw [hs1] at hiff1
    cases r1 with
    | error e1 =>
      simp only [hs1]
      constructor
      · intro h
        exact absurd h (by simp)
      · rintro ⟨entries', he, hkp, _⟩
        injection he with he'
        subst he'
        have := hiff1.mpr hkp
        exact absurd this (by simp)
    | ok u1 =>
      cases u1
      have hall1 : ∀ kp ∈ keypairsOf entries,
          env.update_program_id kp = .ok () := hiff1.mp (by simp)
      rcases hs2 : progressSteps InitStep.program_build env.build_output
          (uniqueBuildPaths env entries) with ⟨s2, r2⟩
      have hiff2 := progressSteps_ok_iff InitStep.program_build
        env.build_output (uniqueBuildPaths env entries)
      rw [hs2] at hiff2
      cases r2 with
      | error e2 =>
        simp only [hs1, hs2]
        constructor
        · intro h
          exact absurd h (by simp)
        · rintro ⟨entries', he, _, hbp, _⟩
          injection he with he'
          subst he'
          have := hiff2.mpr hbp
          exact absurd this (by simp)
      | ok u2 =>
        cases u2
        rcases hs3 : progressSteps InitStep.artifact_deploy env.deploy_output
            (elfsOf entries) with ⟨s3, r3⟩
        have hiff3 := progressSteps_ok_iff InitStep.artifact_deploy
          env.deploy_output (elfsOf entries)
        rw [hs3] at hiff3
        simp only [hs1, hs2, hs3]
        constructor
        · intro h3
          exact ⟨entries, rfl, hall1, hiff2.mp (by simp), hiff3.mp h3⟩
        · rintro ⟨entries', he, _, _, hep⟩
          injection he with he'
          subst he'
          exact hiff3.mpr hep

theorem initRest_mem_build (env : InitEnv) (bp : List Char)
    (h : InitStep.program_build bp ∈ (initRest env).1) :
    ∃ entries, env.read_deploy_dir = .ok entries ∧
      ∀ kp ∈ keypairsOf entries, env.update_program_id kp = .ok () := by
  unfold initRest at h
  cases hr : env.read_deploy_dir with
  | error e =>
    rw [hr] at h
    simp at h
  | ok entries =>
    rw [hr] at h
    rcases hs1 : progressSteps InitStep.identity_sync env.update_program_id
        (keypairsOf entries) with ⟨s1, r1⟩
    have hiff1 := progressSteps_ok_iff InitStep.identity_sync
      env.update_program_id (keypairsOf entries)
    have hmem1 := progressSteps_mem InitStep.identity_sync
      env.update_program_id (keypairsOf entries)
    rw [hs1] at hiff1 hmem1
    cases r1 with
    | error e1 =>
      simp only [hs1] at h
      obtain ⟨x, _, heq⟩ := hmem1 _ h
      exact absurd heq (by simp)
    | ok u1 =>
      cases u1
      exact ⟨entries, rfl, hiff1.mp (by simp)⟩

theorem initRest_mem_deploy (env : InitEnv) (ep : List Char)
    (h : InitStep.artifact_deploy ep ∈ (initRest env).1) :
    ∃ entries, env.read_deploy_dir = .ok entries ∧
      (∀ kp ∈ keypairsOf entries, env.update_program_id kp = .ok ()) ∧
      (∀ bp ∈ uniqueBuildPaths env entries, env.build_output bp = .ok ()) := by
  unfold initRest at h
  cases hr : env.read_deploy_dir with
  | error e =>
    rw [hr] at h
    simp at h
  | ok entries =>
    rw [hr] at h
    rcases hs1 : progressSteps InitStep.identity_sync env.update_program_id
        (keypairsOf entries) with ⟨s1, r1⟩
    have hiff1 := progressSteps_ok_iff InitStep.identity_sync
      env.update_program_id (keypairsOf entries)
    have hmem1 := progressSteps_mem InitStep.identity_sync
      env.update_program_id (keypairsOf entries)
    rw [hs1] at hiff1 hmem1
    cases r1 with
    | error e1 =>
      simp only [hs1] at h
      obtain ⟨x, _, heq⟩ := hmem1 _ h
      exact absurd heq (by simp)
    | ok u1 =>
      cases u1
      rcases hs2 : progressSteps InitStep.program_build env.build_output
          (uniqueBuildPaths env entries) with ⟨s2, r2⟩
      have hiff2 := progressSteps_ok_iff InitStep.program_build
        env.build_output (uniqueBuildPaths env entries)
      have hmem2 := progressSteps_mem InitStep.program_build
        env.build_output (uniqueBuildPaths env entries)
      rw [hs2] at hiff2 hmem2
      cases r2 with
      | error e2 =>
        simp only [hs1, hs2] at h
        rcases List.mem_append.mp h with h1 | h2
        · obtain ⟨x, _, heq⟩ := hmem1 _ h1
          exact absurd heq (by simp)
        · obtain ⟨x, _, heq⟩ := hmem2 _ h2
          exact absurd heq (by simp)
      | ok u2 =>
        cases u2
        exact ⟨entries, rfl, hiff1.mp (by simp), hiff2.mp (by simp)⟩

/-! ### Claim C2: name-resolution fallback of the project map -/

/-- Claim C2 (counterexample to the claim as stated): with the program
inserted under the snake_case name `hello_world`, querying with a keypair
file whose derived name is the separator-folded form `hello-world` does
*not* resolve: lookup of the literal name `hello-world` misses, and
kebab-case normalization of `hello-world` is itself, so the fallback misses
too.  The claim's direction of the fold example is therefore wrong. -/
theorem C2_counterexample :
    mapSnake "hello_world".data = some "programs/hello_world".data ∧
    ProjectMap.get_program_path mapSnake "hello-world-keypair.json".data = none := by
  constructor
  · decide
  · decide

/-- Claim C2 (amended): for a map `m` and a derived name `D` (no `/`, not
itself ending in the special suffix), a query with the keypair file
`D-keypair.json` or the artifact file `D.so` resolves to `m D` when the
literal name is present (literal lookup is tried first), otherwise to
`m (kebab_case D)` (underscores folded to hyphens); when both lookups miss
the query returns `none`.  In particular a program inserted as
`hello-world` is found from the derived name `hello_world`, but not the
other way around, and an unrelated name is never found. -/
theorem C2_name_resolution (m : ProjectMap) (D P : List Char) (hD : '/' ∉ D) :
    (hasSuffix D "-keypair.json".data = false →
      ((m D = some P →
          ProjectMap.get_program_path m (D ++ "-keypair.json".data) = some P) ∧
       (m D = none → m (kebab_case D) = some P →
          ProjectMap.get_program_path m (D ++ "-keypair.json".data) = some P) ∧
       (m D = none → m (kebab_case D) = none →
          ProjectMap.get_program_path m (D ++ "-keypair.json".data) = none)))
    ∧
    (D ≠ [] → hasSuffix D ".so".data = false →
      ((m D = some P →
          ProjectMap.get_program_path m (D ++ ".so".data) = some P) ∧
       (m D = none → m (kebab_case D) = some P →
          ProjectMap.get_program_path m (D ++ ".so".data) = some P) ∧
       (m D = none → m (kebab_case D) = none →
          ProjectMap.get_program_path m (D ++ ".so".data) = none))) := by
  constructor
  · intro hkp
    rw [get_program_path_keypair m D hD hkp]
    exact ⟨fun h1 => by rw [h1], fun h1 h2 => by rw [h1, h2], fun h1 h2 => by rw [h1, h2]⟩
  · intro hne hso
    rw [get_program_path_elf m D hD hne hso]
    exact ⟨fun h1 => by rw [h1], fun h1 h2 => by rw [h1, h2], fun h1 h2 => by rw [h1, h2]⟩

/-- Claim C2 witness: the amended theorem applied to the concrete map with
`hello-world` inserted and the derived snake_case name `hello_world`,
for both a keypair query and an artifact query. -/
theorem C2_name_resolution_witness :
    ProjectMap.get_program_path mapKebab
        ("hello_world".data ++ "-keypair.json".data) =
      some "programs/hello-world".data ∧
    ProjectMap.get_program_path mapKebab ("hello_world".data ++ ".so".data) =
      some "programs/hello-world".data := by
  refine ⟨?_, ?_⟩
  · exact ((C2_name_resolution mapKebab "hello_world".data
      "programs/hello-world".data (by decide)).1 (by decide)).2.1
      (by decide) (by decide)
  · exact ((C2_name_resolution mapKebab "hello_world".data
      "programs/hello-world".data (by decide)).2 (by decide) (by decide)).2.1
      (by decide) (by decide)

/-! ### Claims C3 and C6: top-level handler behaviour -/

theorem is_any_signal_iff (a : WAction) (s : MainSignal) :
    a.is_any_signal s = true ↔ ∃ e ∈ a.events, s ∈ e.signals := by
  unfold WAction.is_any_signal
  constructor
  · intro h
    obtain ⟨sig, hmem, heq⟩ := List.any_eq_true.mp h
    obtain ⟨l, hl, hsigl⟩ := List.mem_flatten.mp hmem
    obtain ⟨e, he, rfl⟩ := List.mem_map.mp hl
    have hss : sig = s := by simpa using heq
    exact ⟨e, he, hss ▸ hsigl⟩
  · rintro ⟨e, he, hs⟩
    apply List.any_eq_true.mpr
    refine ⟨s, ?_, by simp⟩
    exact List.mem_flatten.mpr ⟨e.signals, List.mem_map.mpr ⟨e, he, rfl⟩, hs⟩

/-- Claim C3: if any event of the batch carries an interrupt or terminate
signal, the top-level handler stops and exits the loop, the framework
handler is never invoked, and no command (build, deploy, identity sync) is
issued — regardless of what paths the batch contains and of what the
handler would do. -/
theorem C3_control_signal_precedence
    (handler : WAction → List Cmd × Except (List Char) Unit)
    (action : WAction)
    (h : ∃ e ∈ action.events,
        MainSignal.interrupt ∈ e.signals ∨ MainSignal.terminate ∈ e.signals) :
    top_on_action handler action
      = { outcome := .stop_exit, cmds := [], stderr := [], ret := .ok () } := by
  have hcond : (action.is_interrupt || action.is_terminate) = true := by
    rcases h with ⟨e, he, hc | hc⟩
    · have h1 := (is_any_signal_iff action .interrupt).mpr ⟨e, he, hc⟩
      simp [WAction.is_interrupt, h1]
    · have h1 := (is_any_signal_iff action .terminate).mpr ⟨e, he, hc⟩
      simp [WAction.is_terminate, h1]
  unfold top_on_action
  rw [if_pos hcond]

/-- Claim C3 witness: a concrete interrupt-carrying batch with file paths
present, against a handler that would issue a build. -/
theorem C3_control_signal_precedence_witness :
    top_on_action handlerProbe actInterrupt
      = { outcome := .stop_exit, cmds := [], stderr := [], ret := .ok () } :=
  C3_control_signal_precedence handlerProbe actInterrupt (by decide)

/-- Claim C6: the top-level handler always returns success, and when the
batch is not a control-signal batch and the framework handler fails, the
loop continues and exactly one `[ERR]`-prefixed line is printed. -/
theorem C6_batch_error_isolation
    (handler : WAction → List Cmd × Except (List Char) Unit)
    (action : WAction) :
    (top_on_action handler action).ret = .ok () ∧
    ((action.is_interrupt || action.is_terminate) = false →
      ∀ cmds e, handler action = (cmds, .error e) →
        (top_on_action handler action).outcome = .continue_watch ∧
        (top_on_action handler action).stderr = ["[ERR] ".data ++ e]) := by
  constructor
  · by_cases hc : (action.is_interrupt || action.is_terminate) = true
    · unfold top_on_action
      rw [if_pos hc]
    · unfold top_on_action
      rw [if_neg hc]
      rcases hh : handler action with ⟨cmds, r⟩
      cases r <;> simp
  · intro hni cmds e hh
    unfold top_on_action
    rw [if_neg (by simp [hni]), hh]
    exact ⟨rfl, rfl⟩

/-- Claim C6 witness: a concrete non-signal batch with a failing handler:
the handler error is printed once and the loop continues. -/
theorem C6_batch_error_isolation_witness :
    (top_on_action handlerErr actPlain).ret = .ok () ∧
    (top_on_action handlerErr actPlain).outcome = .continue_watch ∧
    (top_on_action handlerErr actPlain).stderr
      = ["[ERR] ".data ++ "boom".data] := by
  obtain ⟨h1, h2⟩ := C6_batch_error_isolation handlerErr actPlain
  have h3 := h2 (by decide) [] "boom".data rfl
  exact ⟨h1, h3.1, h3.2⟩

/-! ### Claim C5: batch deduplication in the default `on_action` -/

theorem seenAfter_mem [DecidableEq α] (a : List α) :
    ∀ (seen : List α) (y : α), y ∈ seenAfter seen a ↔ y ∈ seen ∨ y ∈ a := by
  induction a with
  | nil => intro seen y; simp [seenAfter]
  | cons x a' ih =>
    intro seen y
    by_cases hx : x ∈ seen
    · rw [seenAfter, if_pos hx, ih]
      constructor
      · rintro (h | h)
        · exact Or.inl h
        · exact Or.inr (by simp [h])
      · rintro (h | h)
        · exact Or.inl h
        · rcases List.mem_cons.mp h with rfl | h'
          · exact Or.inl hx
          · exact Or.inr h'
    · rw [seenAfter, if_neg hx, ih]
      constructor
      · rintro (h | h)
        · rcases List.mem_cons.mp h with rfl | h'
          · exact Or.inr (by simp)
          · exact Or.inl h'
        · exact Or.inr (by simp [h])
      · rintro (h | h)
        · exact Or.inl (by simp [h])
        · rcases List.mem_cons.mp h with rfl | h'
          · exact Or.inl (by simp)
          · exact Or.inr h'

theorem dedupAux_append [DecidableEq α] (a : List α) :
    ∀ (seen l : List α),
      dedupAux seen (a ++ l) = dedupAux seen a ++ dedupAux (seenAfter seen a) l := by
  induction a with
  | nil => intro seen l; simp [dedupAux, seenAfter]
  | cons x a' ih =>
    intro seen l
    by_cases hx : x ∈ seen
    · rw [List.cons_append, dedupAux, if_pos hx, ih, dedupAux, if_pos hx,
        seenAfter, if_pos hx]
    · rw [List.cons_append, dedupAux, if_neg hx, ih, dedupAux, if_neg hx,
        seenAfter, if_neg hx, List.cons_append]

theorem dedupAux_all_seen [DecidableEq α] (b : List α) :
    ∀ (seen l : List α), (∀ x ∈ b, x ∈ seen) →
      dedupAux seen (b ++ l) = dedupAux seen l := by
  induction b with
  | nil => intro seen l _; rfl
  | cons x b' ih =>
    intro seen l hb
    rw [List.cons_append, dedupAux, if_pos (hb x (by simp))]
    exact ih seen l fun y hy => hb y (by simp [hy])

theorem dedup_dup_head [DecidableEq α] (p r : List α) :
    dedup (p ++ (p ++ r)) = dedup (p ++ r) := by
  unfold dedup
  rw [dedupAux_append p [] (p ++ r), dedupAux_append p [] r]
  rw [dedupAux_all_seen p (seenAfter [] p) r
    fun x hx => (seenAfter_mem p [] x).mpr (Or.inr hx)]

theorem classifyPaths_ok (env : ActionEnv) (P : List Char) :
    ∀ (paths acc : List (List Char)),
      (∀ path ∈ paths,
        (pathExt path = some "rs".data ∨ pathExt path = some "toml".data) →
          env.locate path = .ok P) →
      (∀ path ∈ paths, pathExt path = some "so".data →
          ∃ b, env.deploy_spawn path = .ok b) →
      (∀ path ∈ paths, pathExt path = some "json".data →
          env.update_program_id path = .ok ()) →
      ∃ cmds, (∀ c ∈ cmds, ∀ p, c ≠ Cmd.build p) ∧
        ((∃ path ∈ paths,
            pathExt path = some "rs".data ∨ pathExt path = some "toml".data) →
          classifyPaths env acc paths
            = ((if P ∈ acc then acc else acc ++ [P]), cmds, none)) ∧
        ((¬ ∃ path ∈ paths,
            pathExt path = some "rs".data ∨ pathExt path = some "toml".data) →
          classifyPaths env acc paths = (acc, cmds, none)) := by
  intro paths
  induction paths with
  | nil =>
    intro acc _ _ _
    refine ⟨[], by simp, ?_, fun _ => rfl⟩
    rintro ⟨path, hmem, _⟩
    simp at hmem
  | cons path rest ih =>
    intro acc h1 h3 h4
    have h1r : ∀ p ∈ rest,
        (pathExt p = some "rs".data ∨ pathExt p = some "toml".data) →
          env.locate p = .ok P := fun p hp => h1 p (by simp [hp])
    have h3r : ∀ p ∈ rest, pathExt p = some "so".data →
        ∃ b, env.deploy_spawn p = .ok b := fun p hp => h3 p (by simp [hp])
    have h4r : ∀ p ∈ rest, pathExt p = some "json".data →
        env.update_program_id p = .ok () := fun p hp => h4 p (by simp [hp])
    rcases hext : pathExt path with _ | ext
    · obtain ⟨cmds, hnb, hyes, hno⟩ := ih acc h1r h3r h4r
      have hstep : classifyPaths env acc (path :: rest)
          = classifyPaths env acc rest := by
        simp only [classifyPaths, hext]
      refine ⟨cmds, hnb, ?_, ?_⟩
      · rintro ⟨p0, hp0, hsrc⟩
        rcases List.mem_cons.mp hp0 with rfl | hp0r
        · rcases hsrc with h | h <;> rw [hext] at h <;> exact absurd h (by simp)
        · rw [hstep]
          exact hyes ⟨p0, hp0r, hsrc⟩
      · intro hne
        rw [hstep]
        exact hno fun ⟨p0, hp0, hs⟩ => hne ⟨p0, by simp [hp0], hs⟩
    · by_cases hrs : ext = "rs".data ∨ ext = "toml".data
      · have hsrc0 : pathExt path = some "rs".data ∨ pathExt path = some "toml".data := by
          rcases hrs with h | h
          · exact Or.inl (by rw [hext, h])
          · exact Or.inr (by rw [hext, h])
        have hloc : env.locate path = .ok P := h1 path (by simp) hsrc0
        obtain ⟨cmds, hnb, hyes, hno⟩ :=
          ih (if P ∈ acc then acc else acc ++ [P]) h1r h3r h4r
        have hstep : classifyPaths env acc (path :: rest)
            = classifyPaths env (if P ∈ acc then acc else acc ++ [P]) rest := by
          simp only [classifyPaths, hext]
          rw [if_pos hrs]
          simp only [hloc]
        have hPmem : P ∈ (if P ∈ acc then acc else acc ++ [P]) := by
          by_cases hp : P ∈ acc
          · rw [if_pos hp]; exact hp
          · rw [if_neg hp]; simp
        refine ⟨cmds, hnb, ?_, ?_⟩
        · intro _
          rw [hstep]
          by_cases hrest : ∃ p ∈ rest,
              pathExt p = some "rs".data ∨ pathExt p = some "toml".data
          · rw [hyes hrest, if_pos hPmem]
          · rw [hno hrest]
        · intro hne
          exact absurd ⟨path, by simp, hsrc0⟩ hne
      · by_cases hso : ext = "so".data
        · obtain ⟨b, hdep⟩ := h3 path (by simp) (by rw [hext, hso])
          obtain ⟨cmds, hnb, hyes, hno⟩ := ih acc h1r h3r h4r
          have hstep : classifyPaths env acc (path :: rest)
              = ((classifyPaths env acc rest).1,
                  Cmd.deploy path :: (classifyPaths env acc rest).2.1,
                  (classifyPaths env acc rest).2.2) := by
            simp only [classifyPaths, hext]
            rw [if_neg hrs, if_pos hso]
            simp only [hdep]
          have hnotsrc : ¬ (pathExt path = some "rs".data ∨
              pathExt path = some "toml".data) := by
            rintro (h | h) <;> rw [hext] at h <;> injection h with h' <;>
              rw [hso] at h' <;> exact absurd h' (by decide)
          refine ⟨Cmd.deploy path :: cmds, ?_, ?_, ?_⟩
          · intro c hc p0
            rcases List.mem_cons.mp hc with rfl | hcr
            · simp
            · exact hnb c hcr p0
          · rintro ⟨p0, hp0, hsrc⟩
            rcases List.mem_cons.mp hp0 with rfl | hp0r
            · exact absurd hsrc hnotsrc
            · rw [hstep, hyes ⟨p0, hp0r, hsrc⟩]
          · intro hne
            have hner : ¬ ∃ p ∈ rest,
                pathExt p = some "rs".data ∨ pathExt p = some "toml".data :=
              fun ⟨p0, hp0, hs⟩ => hne ⟨p0, by simp [hp0], hs⟩
            rw [hstep, hno hner]
        · by_cases hjson : ext = "json".data
          · have hupd := h4 path (by simp) (by rw [hext, hjson])
            obtain ⟨cmds, hnb, hyes, hno⟩ := ih acc h1r h3r h4r
            have hstep : classifyPaths env acc (path :: rest)
                = ((classifyPaths env acc rest).1,
                    Cmd.update_id path :: (classifyPaths env acc rest).2.1,
                    (classifyPaths env acc rest).2.2) := by
              simp only [classifyPaths, hext]
              rw [if_neg hrs, if_neg hso, if_pos hjson]
              simp only [hupd]
            have hnotsrc : ¬ (pathExt path = some "rs".data ∨
                pathExt path = some "toml".data) := by
              rintro (h | h) <;> rw [hext] at h <;> injection h with h' <;>
                rw [hjson] at h' <;> exact absurd h' (by decide)
            refine ⟨Cmd.update_id path :: cmds, ?_, ?_, ?_⟩
            · intro c hc p0
              rcases List.mem_cons.mp hc with rfl | hcr
              · simp
              · exact hnb c hcr p0
            · rintro ⟨p0, hp0, hsrc⟩
              rcases List.mem_cons.mp hp0 with rfl | hp0r
              · exact absurd hsrc hnotsrc
              · rw [hstep, hyes ⟨p0, hp0r, hsrc⟩]
            · intro hne
              have hner : ¬ ∃ p ∈ rest,
                  pathExt p = some "rs".data ∨ pathExt p = some "toml".data :=
                fun ⟨p0, hp0, hs⟩ => hne ⟨p0, by simp [hp0], hs⟩
              rw [hstep, hno hner]
          · obtain ⟨cmds, hnb, hyes, hno⟩ := ih acc h1r h3r h4r
            have hstep : classifyPaths env acc (path :: rest)
                = classifyPaths env acc rest := by
              simp only [classifyPaths, hext]
              rw [if_neg hrs, if_neg hso, if_neg hjson]
            have hnotsrc : ¬ (pathExt path = some "rs".data ∨
                pathExt path = some "toml".data) := by
              rintro (h | h) <;> rw [hext] at h <;> injection h with h' <;>
                (first
                  | exact hrs (Or.inl h')
                  | exact hrs (Or.inr h'))
            refine ⟨cmds, hnb, ?_, ?_⟩
            · rintro ⟨p0, hp0, hsrc⟩
              rcases List.mem_cons.mp hp0 with rfl | hp0r
              · exact absurd hsrc hnotsrc
              · rw [hstep]
                exact hyes ⟨p0, hp0r, hsrc⟩
            · intro hne
              rw [hstep]
              exact hno fun ⟨p0, hp0, hs⟩ => hne ⟨p0, by simp [hp0], hs⟩

/-- Claim C5: in the default `on_action`, when every changed source or
manifest file of the batch resolves to the same owning program path `P`
(and there is at least one such file, and the deploy/identity operations of
the batch succeed), exactly one build command is issued, for `P`, and it is
issued after all the classification-phase commands — no build occurs
before the whole batch was classified.  Moreover a path touched by several
notifications of the batch is processed once: duplicating an event leaves
the dispatcher's behaviour unchanged. -/
theorem C5_build_deduplication (env : ActionEnv) (action : WAction)
    (P : List Char)
    (h1 : ∀ path ∈ action.get_unique_paths,
      (pathExt path = some "rs".data ∨ pathExt path = some "toml".data) →
        env.locate path = .ok P)
    (h2 : ∃ path ∈ action.get_unique_paths,
      pathExt path = some "rs".data ∨ pathExt path = some "toml".data)
    (h3 : ∀ path ∈ action.get_unique_paths, pathExt path = some "so".data →
        ∃ b, env.deploy_spawn path = .ok b)
    (h4 : ∀ path ∈ action.get_unique_paths, pathExt path = some "json".data →
        env.update_program_id path = .ok ()) :
    (∃ pre, (default_on_action env action).1 = pre ++ [Cmd.build P] ∧
        ∀ c ∈ pre, ∀ p, c ≠ Cmd.build p) ∧
    (∀ (e : WEvent) (es : List WEvent),
        default_on_action env ⟨e :: e :: es⟩
          = default_on_action env ⟨e :: es⟩) := by
  constructor
  · obtain ⟨cmds, hnb, hyes, _⟩ :=
      classifyPaths_ok env P action.get_unique_paths [] h1 h3 h4
    have hcls := hyes h2
    rw [if_neg (by simp)] at hcls
    refine ⟨cmds, ?_, hnb⟩
    cases hb : env.build_spawn P with
    | ok b =>
      simp only [default_on_action, hcls, runBuilds, hb]
    | error e =>
      simp only [default_on_action, hcls, runBuilds, hb]
  · intro e es
    have huniq : (WAction.mk (e :: e :: es)).get_unique_paths
        = (WAction.mk (e :: es)).get_unique_paths := by
      unfold WAction.get_unique_paths
      simp only [List.map_cons, List.flatten_cons]
      exact dedup_dup_head e.paths ((es.map WEvent.paths).flatten)
    unfold default_on_action
    rw [huniq]

/-- Claim C5 witness: a concrete batch of three source files (one of them
listed twice across two events) of the same program plus one artifact: the
trace contains the deploy first and then exactly one build of `prog`. -/
theorem C5_build_deduplication_witness :
    ∃ pre, (default_on_action envC5 actC5).1 = pre ++ [Cmd.build "prog".data] ∧
      ∀ c ∈ pre, ∀ p, c ≠ Cmd.build p :=
  (C5_build_deduplication envC5 actC5 "prog".data (by decide) (by decide)
    (by decide) (by decide)).1

/-! ### Claim C1: initialization-stage failure propagation -/

/-- Claim C1 (counterexample to the claim as stated): in an environment
where a single keypair's identity sync fails (stage 6) and everything else
would succeed, `initialize` returns that error and the remaining stages
never run: the executed steps stop at the failing identity sync, and no
build or deploy step appears — so a failure after stage 1 does abort the
pipeline, contradicting the claim that only a stage-1 failure terminates
it. -/
theorem C1_counterexample :
    (initPipeline envInitSyncFail).2 = .error "bad keypair".data ∧
    (initPipeline envInitSyncFail).1
      = [InitStep.toolset_check, InitStep.name_mapping,
          InitStep.validator_start,
          InitStep.identity_sync "k-keypair.json".data] ∧
    (∀ bp, InitStep.program_build bp ∉ (initPipeline envInitSyncFail).1) ∧
    (∀ ep, InitStep.artifact_deploy ep ∉ (initPipeline envInitSyncFail).1) := by
  have htrace : (initPipeline envInitSyncFail).1
      = [InitStep.toolset_check, InitStep.name_mapping,
          InitStep.validator_start,
          InitStep.identity_sync "k-keypair.json".data] := by decide
  refine ⟨by decide, htrace, ?_, ?_⟩
  · intro bp hmem
    rw [htrace] at hmem
    simp at hmem
  · intro ep hmem
    rw [htrace] at hmem
    simp at hmem

/-- Claim C1 (amended): during initialization, a failure in any stage — not
only stage-1 `checkToolset` — propagates and terminates the pipeline,
aborting the remaining stages and the remaining items of the same stage:
`initialize` succeeds iff every stage and every per-item operation
succeeded; a per-program build step runs only after every identity sync
succeeded; a per-artifact deploy step runs only after every identity sync
and every build succeeded. -/
theorem C1_initialization_propagation (env : InitEnv) :
    ((initPipeline env).2 = .ok () ↔ InitAllOk env) ∧
    (∀ bp, InitStep.program_build bp ∈ (initPipeline env).1 →
      ∃ entries, env.read_deploy_dir = .ok entries ∧
        ∀ kp ∈ keypairsOf entries, env.update_program_id kp = .ok ()) ∧
    (∀ ep, InitStep.artifact_deploy ep ∈ (initPipeline env).1 →
      ∃ entries, env.read_deploy_dir = .ok entries ∧
        (∀ kp ∈ keypairsOf entries, env.update_program_id kp = .ok ()) ∧
        (∀ bp ∈ uniqueBuildPaths env entries,
          env.build_output bp = .ok ())) := by
  refine ⟨?_, ?_, ?_⟩
  · unfold initPipeline InitAllOk
    cases ht : env.check_toolset with
    | error e =>
      constructor
      · intro h
        exact absurd h (by simp)
      · rintro ⟨hck, _⟩
        exact absurd hck (by simp)
    | ok u =>
      cases u
      cases hm : env.map_program_names with
      | error e =>
        constructor
        · intro h
          exact absurd h (by simp)
        · rintro ⟨_, hmp, _⟩
          exact absurd hmp (by simp)
      | ok u2 =>
        cases u2
        cases hd : env.deploy_dir_exists with
        | true =>
          rw [if_pos rfl]
          constructor
          · intro h
            exact ⟨rfl, rfl, fun hfd => absurd hfd (by simp),
              (initRest_ok_iff env).mp h⟩
          · rintro ⟨_, _, _, hrest⟩
            exact (initRest_ok_iff env).mpr hrest
        | false =>
          rw [if_neg (by simp)]
          cases hb : env.bootstrap_build with
          | error e =>
            constructor
            · intro h
              exact absurd h (by simp)
            · rintro ⟨_, _, hboot, _⟩
              exact absurd (hboot rfl) (by simp)
          | ok u3 =>
            cases u3
            constructor
            · intro h
              exact ⟨rfl, rfl, fun _ => rfl, (initRest_ok_iff env).mp h⟩
            · rintro ⟨_, _, _, hrest⟩
              exact (initRest_ok_iff env).mpr hrest
  · intro bp hmem
    refine initRest_mem_build env bp ?_
    unfold initPipeline at hmem
    cases ht : env.check_toolset with
    | error e =>
      rw [ht] at hmem
      simp at hmem
    | ok u =>
      cases u
      rw [ht] at hmem
      cases hm : env.map_program_names with
      | error e =>
        rw [hm] at hmem
        simp at hmem
      | ok u2 =>
        cases u2
        rw [hm] at hmem
        cases hd : env.deploy_dir_exists with
        | true =>
          rw [hd] at hmem
          simp at hmem
          exact hmem
        | false =>
          rw [hd] at hmem
          cases hb : env.bootstrap_build with
          | error e =>
            rw [hb] at hmem
            simp at hmem
          | ok u3 =>
            cases u3
            rw [hb] at hmem
            simp at hmem
            exact hmem
  · intro ep hmem
    refine initRest_mem_deploy env ep ?_
    unfold initPipeline at hmem
    cases ht : env.check_toolset with
    | error e =>
      rw [ht] at hmem
      simp at hmem
    | ok u =>
      cases u
      rw [ht] at hmem
      cases hm : env.map_program_names with
      | error e =>
        rw [hm] at hmem
        simp at hmem
      | ok u2 =>
        cases u2
        rw [hm] at hmem
        cases hd : env.deploy_dir_exists with
        | true =>
          rw [hd] at hmem
          simp at hmem
          exact hmem
        | false =>
          rw [hd] at hmem
          cases hb : env.bootstrap_build with
          | error e =>
            rw [hb] at hmem
            simp at hmem
          | ok u3 =>
            cases u3
            rw [hb] at hmem
            simp at hmem
            exact hmem

/-- Claim C1 witness: in a concrete environment where every stage succeeds,
the amended theorem yields a successful initialization. -/
theorem C1_initialization_propagation_witness :
    (initPipeline envInitOk).2 = .ok () :=
  (C1_initialization_propagation envInitOk).1.mpr
    ⟨rfl, rfl, fun h => absurd h (by decide),
      ⟨["k-keypair.json".data, "k.so".data], rfl, by decide, by decide,
        by decide⟩⟩

/-! ### Claims C4 and C7: identity-sync idempotence and precision -/

/-- Claim C4 (counterexample to the claim as stated): idempotence fails for
a target identity containing quote and newline characters.  Starting from
`declare_id!("old")` and target `A")<newline>declare_id!("B`, the first
update rewrites the file to two `declare_id!` lines; the second update finds
the first line's identifier `A`, which differs from the target, so it writes
again and returns `true`, and the content changes once more. -/
theorem C4_counterexample :
    (update_rust_program_id
        (update_rust_program_id "declare_id!(\"old\")".data
          "A\")\ndeclare_id!(\"B".data).1
        "A\")\ndeclare_id!(\"B".data).2 = true ∧
    (update_rust_program_id
        (update_rust_program_id "declare_id!(\"old\")".data
          "A\")\ndeclare_id!(\"B".data).1
        "A\")\ndeclare_id!(\"B".data).1 ≠
      (update_rust_program_id "declare_id!(\"old\")".data
        "A\")\ndeclare_id!(\"B".data).1 := by
  constructor
  · decide
  · decide

/-- Claim C4 (amended): identity sync is idempotent for every file content
and every target identity `X` made of word characters (as keypair-derived
identities are): the second application leaves the content of the first
application unchanged and returns `false` (no write). -/
theorem C4_idempotent (content X : List Char)
    (hX : ∀ c ∈ X, isWordChar c = true) :
    (update_rust_program_id (update_rust_program_id content X).1 X).1
        = (update_rust_program_id content X).1 ∧
    (update_rust_program_id (update_rust_program_id content X).1 X).2
        = false := by
  cases hc : rustDeclareIdCapture content with
  | none =>
    have h1 : update_rust_program_id content X = (content, false) := by
      unfold update_rust_program_id update_file_program_id_with
      simp only [hc]
    exact ⟨by simp only [h1], by simp only [h1]⟩
  | some triple =>
    obtain ⟨p, w, q⟩ := triple
    by_cases hwX : w = X
    · have h1 : update_rust_program_id content X = (content, false) := by
        unfold update_rust_program_id update_file_program_id_with
        simp only [hc]
        rw [if_neg (by simp [hwX])]
      exact ⟨by simp only [h1], by simp only [h1]⟩
    · have h1 : update_rust_program_id content X = (p ++ X ++ q, true) := by
        unfold update_rust_program_id update_file_program_id_with
        simp only [hc]
        rw [if_pos hwX]
      have hstab := rustDeclareIdCapture_stable hc hX
      have h2 : update_rust_program_id (p ++ X ++ q) X = (p ++ X ++ q, false) := by
        unfold update_rust_program_id update_file_program_id_with
        simp only [hstab]
        rw [if_neg (by simp)]
      exact ⟨by simp only [h1, h2], by simp only [h1, h2]⟩

/-- Claim C4 witness: idempotence at the concrete file
`declare_id!("old")` and target `NEW`. -/
theorem C4_idempotent_witness :
    (update_rust_program_id
        (update_rust_program_id "declare_id!(\"old\")".data "NEW".data).1
        "NEW".data).1
      = (update_rust_program_id "declare_id!(\"old\")".data "NEW".data).1 ∧
    (update_rust_program_id
        (update_rust_program_id "declare_id!(\"old\")".data "NEW".data).1
        "NEW".data).2 = false :=
  C4_idempotent "declare_id!(\"old\")".data "NEW".data (by decide)

/-- Claim C7: when an identity update succeeds (returns `true`), the content
decomposes at the pattern's captured identifier as `p ++ w ++ q`, and the
new content is exactly `p ++ X ++ q`: only the captured range is replaced
and every other character is unchanged. -/
theorem C7_frame_effect (content X c' : List Char)
    (h : update_rust_program_id content X = (c', true)) :
    ∃ p w q, rustDeclareIdCapture content = some (p, w, q) ∧
      w ≠ X ∧ content = p ++ w ++ q ∧ c' = p ++ X ++ q := by
  unfold update_rust_program_id update_file_program_id_with at h
  cases hc : rustDeclareIdCapture content with
  | none => simp [hc] at h
  | some triple =>
    obtain ⟨p, w, q⟩ := triple
    simp only [hc] at h
    by_cases hwX : w = X
    · rw [if_neg (by simp [hwX])] at h
      simp at h
    · rw [if_pos hwX] at h
      simp only [Prod.mk.injEq] at h
      exact ⟨p, w, q, rfl, hwX, rustDeclareIdCapture_sound hc, h.1.symm⟩

/-- Claim C7 witness: the frame property at the concrete successful update
of `declare_id!("old")` to the target `NEW`. -/
theorem C7_frame_effect_witness :
    ∃ p w q,
      rustDeclareIdCapture "declare_id!(\"old\")".data = some (p, w, q) ∧
      w ≠ "NEW".data ∧ "declare_id!(\"old\")".data = p ++ w ++ q ∧
      "declare_id!(\"NEW\")".data = p ++ "NEW".data ++ q :=
  C7_frame_effect "declare_id!(\"old\")".data "NEW".data
    "declare_id!(\"NEW\")".data (by decide)

/-! ### Claim C8: native build-tool selection -/

/-- Claim C8: the native toolset check probes `cargo build-sbf` first and
`cargo build-bpf` second, each by running `<tool> --version` (success iff
exit code 0); the first installed command is selected — and cached by
`check_toolset` as the build command that `Native::build` then uses — and
when neither probe succeeds the result is the tool-not-found error naming
the ecosystem `solana`.  The probe trace shows the fixed order: the second
probe runs only when the first fails. -/
theorem C8_toolset_selection (env : ToolEnv) :
    (command_exists env "cargo build-sbf".data = true →
      get_bpf_or_sbf env
        = (.ok "cargo build-sbf".data, ["cargo build-sbf --version".data])) ∧
    (command_exists env "cargo build-sbf".data = false →
      command_exists env "cargo build-bpf".data = true →
      get_bpf_or_sbf env = (.ok "cargo build-bpf".data,
        ["cargo build-sbf --version".data,
          "cargo build-bpf --version".data])) ∧
    (command_exists env "cargo build-sbf".data = false →
      command_exists env "cargo build-bpf".data = false →
      get_bpf_or_sbf env = (.error "solana".data,
        ["cargo build-sbf --version".data,
          "cargo build-bpf --version".data])) ∧
    (∀ st st' probes, Native.check_toolset env st = (.ok st', probes) →
      (get_bpf_or_sbf env).1 = .ok st'.build_cmd ∧
      ∀ p, Native.build st' p = { line := st'.build_cmd, cwd := some p }) := by
  refine ⟨?_, ?_, ?_, ?_⟩
  · intro h
    unfold get_bpf_or_sbf
    rw [if_pos h]
  · intro h1 h2
    unfold get_bpf_or_sbf
    rw [if_neg (by simp [h1]), if_pos h2]
  · intro h1 h2
    unfold get_bpf_or_sbf
    rw [if_neg (by simp [h1]), if_neg (by simp [h2])]
  · intro st st' probes h
    unfold Native.check_toolset at h
    rcases hg : get_bpf_or_sbf env with ⟨r, ps⟩
    rw [hg] at h
    cases r with
    | ok cmd =>
      simp only [Prod.mk.injEq, Except.ok.injEq] at h
      obtain ⟨h1, h2⟩ := h
      subst h1
      exact ⟨rfl, fun p => rfl⟩
    | error e => simp at h

/-- Claim C8 witness: with only `cargo build-bpf` installed, the first
probe fails, the second succeeds, and `cargo build-bpf` is selected. -/
theorem C8_toolset_selection_witness :
    get_bpf_or_sbf envToolBpfOnly = (.ok "cargo build-bpf".data,
      ["cargo build-sbf --version".data, "cargo build-bpf --version".data]) :=
  (C8_toolset_selection envToolBpfOnly).2.1 (by decide) (by decide)

/-! ### Claim C9: framework detection precedence -/

/-- Claim C9: framework detection examines the root entries in a fixed
precedence order — `programs_py`, then `Anchor.toml`, then `Cargo.toml` —
selecting the variant of the first marker present (so Seahorse wins even
when a native manifest is also present); when none is present the fatal
invalid-project-directory error carrying the origin is raised and watching
never starts. -/
theorem C9_framework_detection (origin : List Char)
    (items : List (List Char)) :
    ("programs_py".data ∈ items →
      get_framework_from_path origin items = .ok .seahorse) ∧
    ("programs_py".data ∉ items → "Anchor.toml".data ∈ items →
      get_framework_from_path origin items = .ok .anchor) ∧
    ("programs_py".data ∉ items → "Anchor.toml".data ∉ items →
      "Cargo.toml".data ∈ items →
      get_framework_from_path origin items = .ok .native) ∧
    ("programs_py".data ∉ items → "Anchor.toml".data ∉ items →
      "Cargo.toml".data ∉ items →
      mainFlow origin items = (.error origin, false)) := by
  refine ⟨?_, ?_, ?_, ?_⟩
  · intro h
    unfold get_framework_from_path
    rw [if_pos h]
  · intro h1 h2
    unfold get_framework_from_path
    rw [if_neg h1, if_pos h2]
  · intro h1 h2 h3
    unfold get_framework_from_path
    rw [if_neg h1, if_neg h2, if_pos h3]
  · intro h1 h2 h3
    unfold mainFlow get_framework_from_path
    rw [if_neg h1, if_neg h2, if_neg h3]

/-- Claim C9 witness: a root containing both `Cargo.toml` and the
`programs_py` marker selects Seahorse, and a root with no marker fails with
the invalid-project-directory error before watching starts. -/
theorem C9_framework_detection_witness :
    get_framework_from_path "/proj".data
        ["Cargo.toml".data, "programs_py".data] = .ok .seahorse ∧
    mainFlow "/empty".data ["README.md".data]
      = (.error "/empty".data, false) :=
  ⟨(C9_framework_detection "/proj".data
      ["Cargo.toml".data, "programs_py".data]).1 (by decide),
    (C9_framework_detection "/empty".data ["README.md".data]).2.2.2
      (by decide) (by decide) (by decide)⟩

/-! ### Claim C10: lib.rs read errors do not fall through to the glob
scan -/

/-- Claim C10: when reading `src/lib.rs` fails, `find_and_update_program_id`
returns that read error and performs no other filesystem operation: the
remaining `src/*.rs` files are never examined (even when the environment's
glob lists a file containing the declaration) and nothing is written. -/
theorem C10_missing_lib_rs (env : SyncEnv) (program_path kp pid e : List Char)
    (hpk : env.pubkey kp = .ok pid)
    (hread : env.read (program_path ++ "/src/lib.rs".data) = .error e) :
    find_and_update_program_id env program_path kp
      = (.error e, [FsOp.read_file (program_path ++ "/src/lib.rs".data)]) := by
  unfold find_and_update_program_id update_rust_program_id_fs
  simp only [hpk, hread]

/-- Claim C10 witness: with `src/lib.rs` unreadable and another source file
containing a valid declaration, the sync still returns the lib.rs read
error after a single read attempt. -/
theorem C10_missing_lib_rs_witness :
    find_and_update_program_id envSyncNoLib "prog".data "k-keypair.json".data
      = (.error "no lib.rs".data,
          [FsOp.read_file ("prog".data ++ "/src/lib.rs".data)]) :=
  C10_missing_lib_rs envSyncNoLib "prog".data "k-keypair.json".data
    "NEW".data "no lib.rs".data (by decide) (by decide)

end Watchso
